import Mathlib

/-!
Shallow embedding of the `subdb` storage engine (paritytech/subdb) and proofs
about its specification claims.

Conventions used throughout this development:

* Machine integers are modelled as `Nat` with explicit `% 2 ^ w` where overflow
  or truncation matters.  Shift amounts on `u16` are masked by 16, matching the
  defined behaviour of overflowing shifts in release builds of the source
  language.
* Byte strings are `List Nat` whose elements are intended to be `< 256`.
* Fallible operations return `Option`/`Except`; places where the source panics
  (`expect`, `assert!`, `unimplemented!`) are modelled by a distinguished
  `none`/`panicked` outcome so that theorems can be restricted to executions
  that terminate normally.
* Unbounded `for` loops in the source are modelled with an explicit fuel
  argument; running out of fuel is a distinguished outcome, never conflated
  with a result the source could produce.
-/

namespace Subdb

/-! ## Byte-string helpers -/

/-- Little-endian interpretation of a byte list as a natural number. -/
def leBytes : List Nat → Nat
  | [] => 0
  | b :: r => b % 256 + 256 * leBytes r

/-- Little-endian encoding of `v` into exactly `w` bytes (truncating above). -/
def natToLeBytes : Nat → Nat → List Nat
  | 0, _ => []
  | w + 1, v => v % 256 :: natToLeBytes w (v / 256)

/-- `Vec::resize(8, 0)`: truncate or zero-pad a byte list to length 8. -/
def resizeTo8 (l : List Nat) : List Nat :=
  l.take 8 ++ List.replicate (8 - l.length) 0

/-! ## `DatumSize` (src/datum_size.rs)

`MAX_SIZE` is 63; class 63 is `Oversize`.  `size` is translated from
`DatumSize::size`; the source `assert!(size_class < MAX_SIZE)` panic is
modelled by returning `none` for out-of-range classes. -/

inductive DatumSize where
  | Oversize : DatumSize
  | Size : Nat → DatumSize
deriving DecidableEq, Repr

namespace DatumSize

/-- `DatumSize::size`: byte size of a sized class (`none` for `Oversize` and,
modelling the assert, for classes ≥ 63). -/
def size : DatumSize → Option Nat
  | .Oversize => none
  | .Size size_class =>
    if size_class < 63 then
      if size_class < 32 then
        let exp := size_class / 8
        let tweak := size_class % 8
        let base := 32 <<< exp
        some (base + base / 8 * tweak)
      else
        let exp := size_class / 4 - 4
        let tweak := size_class % 4
        let base := 32 <<< exp
        some (base + base / 4 * tweak)
    else none

/-- Floor of the base-2 logarithm, by structural recursion on a fuel of 64
(enough for any 64-bit `usize`, which is what the source operates on). -/
def log2usize (fuel s : Nat) : Nat :=
  match fuel with
  | 0 => 0
  | fuel + 1 => if s ≤ 1 then 0 else 1 + log2usize fuel (s / 2)

/-- `DatumSize::nearest`.  For `s > 32` the source computes
`exp = usize_bits - s.leading_zeros() - 6`, i.e. `log2 s - 5`. -/
def nearest (s : Nat) : DatumSize :=
  if s ≤ 32 then .Size 0
  else
    let exp := log2usize 64 s - 5
    let base := 32 <<< exp
    let rem := s - base
    let result :=
      if exp < 4 then
        let incr := base / 8
        let incrs := (rem + incr - 1) / incr
        exp * 8 + incrs
      else
        let incr := base / 4
        let incrs := (rem + incr - 1) / incr
        32 + (exp - 4) * 4 + incrs
    if result < 63 then .Size result else .Oversize

/-- `DatumSize::contents_entries`, verbatim: note the source applies
`.max(65536).min(1)` to the quotient. -/
def contents_entries (d : DatumSize) : Nat :=
  match d.size with
  | some size => ((2048 * 1024 / size).max 65536).min 1
  | none => 1

/-- `DatumSize::size_range` (`usize::max_value()` for `Oversize` is modelled as
`2 ^ 64 - 1`; the assert for classes ≥ 63 as `none`). -/
def size_range : DatumSize → Option Nat
  | .Oversize => some (2 ^ 64 - 1)
  | .Size size_class =>
    if size_class < 63 then
      if size_class = 0 then some 33
      else if size_class ≤ 32 then
        let exp := size_class / 8
        let tweak := size_class % 8
        let base := 32 <<< exp
        some (if tweak = 0 then base / 8 / 2 else base / 8)
      else
        let exp := size_class / 4 - 4
        let tweak := size_class % 4
        let base := 32 <<< exp
        some (if tweak = 0 then base / 4 / 2 else base / 4)
    else none

end DatumSize

/-! ## Content-table item headers (src/table.rs)

`ItemHeader<K>` with its byte-level `encode_to`/`decode`.  Keys are modelled as
raw byte lists (the source's `K: Encode + Decode` fixed-width arrays encode as
their raw bytes).  `encode_to`'s `assert!(*ref_count < 32768)` is modelled by
returning `none` (panic).  In `decode`, the source line

  `let ref_count = ((first_byte & !0b01111111) as u16) << 7 + input.read_byte()? as u16;`

parses as a shift by `7 + second_byte` (the `+` binds tighter than `<<`), with
the mask keeping only the top bit of the first byte; `u16` shifts mask their
shift amount by 16 (release-build semantics of an overflowing shift), and the
result is reduced `% 2 ^ 16`. -/

inductive CorrectionFactor where
  | None : CorrectionFactor
  | U8 : CorrectionFactor
  | U16 : CorrectionFactor
  | U32 : CorrectionFactor
deriving DecidableEq, Repr

inductive ItemHeader where
  | Allocated (ref_count : Nat) (size_correction : Nat) (key : List Nat)
  | Free (next_free : Nat)
deriving DecidableEq, Repr

namespace ItemHeader

/-- `ItemHeader::encode_to` producing the byte string (`none` models the
`assert!(*ref_count < 32768)` panic). -/
def encode_to (cf : CorrectionFactor) : ItemHeader → Option (List Nat)
  | .Allocated rc sc key =>
    if rc < 32768 then
      some ((((rc >>> 8) ||| 128) % 256) :: (rc % 256) ::
        ((match cf with
          | .None => []
          | .U8 => [sc % 256]
          | .U16 => natToLeBytes 2 sc
          | .U32 => natToLeBytes 4 sc) ++ key))
    else none
  | .Free nf => some (0 :: natToLeBytes 2 nf)

/-- Decode the size-correction field, returning it with the remaining input. -/
def decodeCorrection (cf : CorrectionFactor) (input : List Nat) :
    Option (Nat × List Nat) :=
  match cf with
  | .None => some (0, input)
  | .U8 =>
    match input with
    | a :: rest => some (a % 256, rest)
    | [] => none
  | .U16 =>
    match input with
    | a :: b :: rest => some (leBytes [a, b], rest)
    | _ => none
  | .U32 =>
    match input with
    | a :: b :: c :: d :: rest => some (leBytes [a, b, c, d], rest)
    | _ => none

/-- `ItemHeader::decode`.  The refcount expression is the verbatim translation
of the source's operator-precedence reading (see section comment). -/
def decode (cf : CorrectionFactor) (keySize : Nat) (input : List Nat) :
    Option ItemHeader :=
  match input with
  | [] => none
  | first_byte :: rest =>
    if first_byte % 256 > 0 then
      match rest with
      | [] => none
      | second :: rest2 =>
        match decodeCorrection cf rest2 with
        | none => none
        | some (sc, rest3) =>
          if keySize ≤ rest3.length then
            some (.Allocated
              ((((first_byte % 256) &&& 128) <<< ((7 + second % 256) % 16)) % 65536)
              sc (rest3.take keySize))
          else none
    else
      match rest with
      | a :: b :: _ => some (.Free (leBytes [a, b]))
      | _ => none

end ItemHeader

end Subdb

namespace Subdb

/-! ## `Options` (src/database.rs)

Only the two numeric fields take part in the claims; `path` is irrelevant. -/

structure Options where
  key_bytes : Nat
  index_bits : Nat
deriving DecidableEq, Repr

namespace Options

/-- `Options::new()`: `key_bytes: 4, index_bits: 16`. -/
def new : Options := ⟨4, 16⟩

/-- The `Options::key_bytes` setter: stores `key_bytes` and lowers
`index_bits` to at most `key_bytes * 8`. -/
def setKeyBytes (o : Options) (key_bytes : Nat) : Options :=
  ⟨key_bytes, min o.index_bits (key_bytes * 8)⟩

/-- The `Options::index_bits` setter: stores `index_bits` and raises
`key_bytes` to at least `index_bits / 8` (floor division, verbatim). -/
def setIndexBits (o : Options) (index_bits : Nat) : Options :=
  ⟨max o.key_bytes (index_bits / 8), index_bits⟩

end Options

/-- One builder call (either setter, with its argument). -/
inductive OptionsCall where
  | keyBytes (n : Nat) : OptionsCall
  | indexBits (n : Nat) : OptionsCall
deriving DecidableEq, Repr

/-- Apply a sequence of builder calls in order. -/
def applyCalls (o : Options) : List OptionsCall → Options
  | [] => o
  | .keyBytes n :: rest => applyCalls (o.setKeyBytes n) rest
  | .indexBits n :: rest => applyCalls (o.setIndexBits n) rest

/-! ## The persistent index (src/index.rs)

The index is a slot array of `IndexItem`s.  Index items round-trip through
their byte encoding (src/index_item.rs) as long as `key_correction < 2 ^ 15`
and the suffix has the configured length, so slots are modelled as values.
The address payload type `V` is kept abstract, exactly as in `Index<K, V>`. -/

structure IndexEntry (V : Type) where
  key_correction : Nat
  key_suffix : List Nat
  address : V
deriving DecidableEq, Repr

structure IndexItem (V : Type) where
  skipped_count : Nat
  maybe_entry : Option (IndexEntry V)
deriving DecidableEq, Repr

/-- A byte slot that has never been written decodes to an empty item. -/
def emptyItem (V : Type) : IndexItem V := ⟨0, none⟩

structure Index (V : Type) where
  items : List (IndexItem V)
  key_bytes : Nat
  index_bits : Nat
deriving DecidableEq, Repr

namespace Index

variable {V : Type} {R : Type}

/-- `item_count`: the number of slots (`1 << index_bits` for a well-formed
index; kept as the length of the backing array). -/
def item_count (x : Index V) : Nat := x.items.length

def index_full_bytes (x : Index V) : Nat := x.index_bits / 8

def suffix_len (x : Index V) : Nat := x.key_bytes - x.index_full_bytes

def index_mask (x : Index V) : Nat := 2 ^ x.index_bits - 1

/-- `Index::read_item` (out-of-range reads never occur in the source; they
yield the empty item here). -/
def read_item (x : Index V) (i : Nat) : IndexItem V :=
  x.items.getD i (emptyItem V)

/-- `Index::write_item`. -/
def write_item (x : Index V) (i : Nat) (item : IndexItem V) : Index V :=
  { x with items := x.items.set i item }

/-- `Index::index_suffix_of`: read 1/2/4/8 little-endian bytes of the hash
according to `index_bits`, mask to get the preferred slot, and slice
`hash[index_full_bytes..key_bytes]` for the suffix.  (The source panics when
the hash is shorter than required; theorems carry length hypotheses.) -/
def index_suffix_of (x : Index V) (hash : List Nat) : Nat × List Nat :=
  let index :=
    if x.index_bits = 0 then 0
    else if x.index_bits ≤ 8 then hash.getD 0 0
    else if x.index_bits ≤ 16 then leBytes (hash.take 2)
    else if x.index_bits ≤ 32 then leBytes (hash.take 4)
    else leBytes (hash.take 8)
  (index &&& x.index_mask,
   (hash.drop x.index_full_bytes).take (x.key_bytes - x.index_full_bytes))

/-- `Index::key_prefix`: little-endian encode the slot index into
`index_full_bytes` bytes and append the suffix. -/
def key_prefix_of (x : Index V) (index : Nat) (suffix : List Nat) : List Nat :=
  natToLeBytes x.index_full_bytes index ++ suffix

/-- One probe of `with_item_try`'s loop body: the callback is invoked only on
an occupied slot whose correction and suffix match. -/
def hit (f : IndexEntry V → Option R) (suffix : List Nat) (correction : Nat)
    (item : IndexItem V) : Option R :=
  match item.maybe_entry with
  | some entry =>
    if entry.key_correction = correction ∧ entry.key_suffix = suffix then f entry
    else none
  | none => none

/-- The loop of `Index::with_item_try`, with fuel (the source loop is
unbounded; it terminates through the `skipped_count == 0` check or a
successful callback).  `none` means out of fuel; `some none` is the source's
`None` (absent); `some (some r)` its `Some(r)`. -/
def withItemTryGo (x : Index V) (f : IndexEntry V → Option R) (suffix : List Nat) :
    Nat → Nat → Nat → Option (Option R)
  | 0, _, _ => none
  | fuel + 1, index, correction =>
    let item := x.read_item index
    match hit f suffix correction item with
    | some result => some (some result)
    | none =>
      if item.skipped_count = 0 then some none
      else withItemTryGo x f suffix fuel ((index + 1) % x.item_count) (correction + 1)

/-- `Index::with_item_try`. -/
def with_item_try (x : Index V) (hash : List Nat) (f : IndexEntry V → Option R)
    (fuel : Nat) : Option (Option R) :=
  let (index, suffix) := x.index_suffix_of hash
  withItemTryGo x f suffix fuel index 0

/-- `Index::decrement_skip_counts(begin, count)`: for `i` in
`begin..begin+count`, decrement the skip count of slot `i % item_count`.  (The
source's `checked_sub(1).expect(..)` panics on underflow; the theorems below
only use this in states whose counts are positive, where truncated
subtraction agrees.) -/
def decrement_skip_counts (x : Index V) : Nat → Nat → Index V
  | _, 0 => x
  | b, count + 1 =>
    decrement_skip_counts
      (x.write_item (b % x.item_count)
        ⟨(x.read_item (b % x.item_count)).skipped_count - 1,
          (x.read_item (b % x.item_count)).maybe_entry⟩)
      (b + 1) count

/-- Outcome of `edit_in`: `ok` is `Ok(r)`; `indexFull` is `Err(Error::IndexFull)`
(from running out the loop bound or a skip-count overflow); `panicked` models
the `expect` that fires if the callback returns `Err` when given `None`. -/
inductive EditInRes (R : Type) where
  | ok (r : R) : EditInRes R
  | indexFull : EditInRes R
  | panicked : EditInRes R
deriving DecidableEq, Repr

/-- The loop of `Index::edit_in_position`.  The fuel is exactly the source's
loop bound `MAX_CORRECTION.min(item_count)` at the top-level call.  The
callback is pure (`FnMut` state is not observable through the claims proved
here).  A skip count at 255 makes `checked_add` fail: the source `break`s out
and returns `Err(IndexFull)` leaving earlier increments in place. -/
def editInGo (f : Option V → Option (Option V × R)) (suffix : List Nat)
    (primary : Nat) : Nat → Index V → Nat → Nat → Index V × EditInRes R
  | 0, x, _, _ => (x, .indexFull)
  | fuel + 1, x, tryIndex, keyCorrection =>
    let item := x.read_item tryIndex
    match item.maybe_entry with
    | some e =>
      match
        (if e.key_suffix = suffix ∧ e.key_correction = keyCorrection
         then f (some e.address) else none) with
      | some result => (x, .ok result.2)
      | none =>
        if item.skipped_count + 1 ≤ 255 then
          editInGo f suffix primary fuel
            (x.write_item tryIndex ⟨item.skipped_count + 1, item.maybe_entry⟩)
            ((tryIndex + 1) % x.item_count) (keyCorrection + 1)
        else (x, .indexFull)
    | none =>
      match f none with
      | none => (x, .panicked)
      | some (some address, r) =>
        (x.write_item tryIndex
          ⟨item.skipped_count, some ⟨keyCorrection, suffix, address⟩⟩, .ok r)
      | some (none, r) =>
        (x.decrement_skip_counts primary keyCorrection, .ok r)

/-- `Index::edit_in_position` (`MAX_CORRECTION = 32768`). -/
def edit_in_position (x : Index V) (primary : Nat) (suffix : List Nat)
    (f : Option V → Option (Option V × R)) : Index V × EditInRes R :=
  editInGo f suffix primary (min 32768 x.item_count) x primary 0

/-- `Index::edit_in`. -/
def edit_in (x : Index V) (hash : List Nat)
    (f : Option V → Option (Option V × R)) : Index V × EditInRes R :=
  x.edit_in_position (x.index_suffix_of hash).1 (x.index_suffix_of hash).2 f

/-- The loop of `Index::edit_out`, with fuel (the source loop is unbounded).
Result `none` = out of fuel; `some (Except.error ())` = the source's
`Err(())` not-found; `some (Except.ok r)` = `Ok(r)`.  The callback
`if_maybe_found` returns `Err` (`none` here) to keep probing, `Ok((None, r))`
to leave the slot alone, `Ok((Some(Some a), r))` to rewrite the address, and
`Ok((Some(None), r))` to erase the entry and walk back the skip trail. -/
def editOutGo (f : V → Option (Option (Option V) × R)) (suffix : List Nat)
    (primary : Nat) : Nat → Index V → Nat → Nat → Index V × Option (Except Unit R)
  | 0, x, _, _ => (x, none)
  | fuel + 1, x, tryIndex, correction =>
    let item := x.read_item tryIndex
    match item.maybe_entry with
    | some entry =>
      if entry.key_correction = correction ∧ entry.key_suffix = suffix then
        match f entry.address with
        | none =>
          if item.skipped_count = 0 then (x, some (.error ()))
          else editOutGo f suffix primary fuel x
            ((tryIndex + 1) % x.item_count) (correction + 1)
        | some (none, r) => (x, some (.ok r))
        | some (some (some address), r) =>
          (x.write_item tryIndex
            ⟨item.skipped_count,
              some ⟨entry.key_correction, entry.key_suffix, address⟩⟩,
            some (.ok r))
        | some (some none, r) =>
          ((x.write_item tryIndex ⟨item.skipped_count, none⟩).decrement_skip_counts
            primary correction, some (.ok r))
      else
        if item.skipped_count = 0 then (x, some (.error ()))
        else editOutGo f suffix primary fuel x
          ((tryIndex + 1) % x.item_count) (correction + 1)
    | none =>
      if item.skipped_count = 0 then (x, some (.error ()))
      else editOutGo f suffix primary fuel x
        ((tryIndex + 1) % x.item_count) (correction + 1)

/-- `Index::edit_out`. -/
def edit_out (x : Index V) (hash : List Nat)
    (f : V → Option (Option (Option V) × R)) (fuel : Nat) :
    Index V × Option (Except Unit R) :=
  editOutGo f (x.index_suffix_of hash).2 (x.index_suffix_of hash).1 fuel x
    (x.index_suffix_of hash).1 0

/-- `Index::open` on a fresh file: `item_count = 1 << index_bits` zeroed slots
(zero bytes decode to the empty item). -/
def openFresh (V : Type) (key_bytes index_bits : Nat) : Index V :=
  ⟨List.replicate (2 ^ index_bits) (emptyItem V), key_bytes, index_bits⟩

/-- One insertion of `from_existing`'s rebuild loop: pad the reconstructed
partial key to 8 bytes, recompute index and suffix in the new geometry, and
`edit_in_position` a callback that declines a colliding entry (`Err(())`) and
installs the carried address on an empty slot (the `the_address.take()`
`FnMut` device is invisible to a single call). -/
def rebuildStep (result : Index V) (address : V) (partial_key : List Nat) :
    Index V × EditInRes Unit :=
  let padded := resizeTo8 partial_key
  let is := result.index_suffix_of padded
  result.edit_in_position (is.1 &&& result.index_mask) is.2
    (fun maybe_same =>
      match maybe_same with
      | some _ => none
      | none => some (some address, ()))

/-- The loop of `Index::from_existing`, over the source-slot indices.  Result
`none` models a panic (the `assert!(partial_key.len() >= result.key_bytes)`);
`some (Except.error ())` propagates `Err(Error::IndexFull)` from `edit_in`;
`some (Except.ok x)` is normal completion. -/
def fromExistingGo (source : Index V) : List Nat → Index V → Option (Except Unit (Index V))
  | [], result => some (.ok result)
  | i :: rest, result =>
    match (source.read_item i).maybe_entry with
    | none => fromExistingGo source rest result
    | some entry =>
      if result.key_bytes ≤ (source.key_prefix_of
          ((i + source.item_count - entry.key_correction) % source.item_count)
          entry.key_suffix).length then
        match (rebuildStep result entry.address (source.key_prefix_of
            ((i + source.item_count - entry.key_correction) % source.item_count)
            entry.key_suffix)).2 with
        | .ok _ =>
          fromExistingGo source rest (rebuildStep result entry.address
            (source.key_prefix_of
              ((i + source.item_count - entry.key_correction) % source.item_count)
              entry.key_suffix)).1
        | .indexFull => some (.error ())
        | .panicked => none
      else none

/-- `Index::from_existing` (`none` additionally models the `unimplemented!()`
hit when `key_bytes > source.key_bytes`). -/
def from_existing (source : Index V) (key_bytes index_bits : Nat) :
    Option (Except Unit (Index V)) :=
  if key_bytes ≤ source.key_bytes then
    fromExistingGo source (List.range source.item_count)
      (openFresh V key_bytes index_bits)
  else none

/-- `Index::next_size`. -/
def next_size (x : Index V) : Nat × Nat :=
  (max x.key_bytes ((x.index_bits + 7) / 8), x.index_bits + 1)

/-- The slot reached after `k` steps of the probe walk that starts at `start`
(each step moves to `(current + 1) % item_count`). -/
def stepSlot (n : Nat) : Nat → Nat → Nat
  | start, 0 => start
  | start, k + 1 => stepSlot n ((start + 1) % n) k

/-- How many of the first `k` walk slots starting at `start` equal `t`. -/
def pathCount (n : Nat) : Nat → Nat → Nat → Nat
  | _, 0, _ => 0
  | start, k + 1, t =>
    (if start = t then 1 else 0) + pathCount n ((start + 1) % n) k t

/-- The running mutations `edit_in_position` performs while probing: increment
the skip count of each of the first `k` walk slots, in walk order. -/
def bumpSkips (x : Index V) : Nat → Nat → Index V
  | _, 0 => x
  | start, k + 1 =>
    bumpSkips
      (x.write_item start
        ⟨(x.read_item start).skipped_count + 1, (x.read_item start).maybe_entry⟩)
      ((start + 1) % x.item_count) k

/-- The `j`-th probe of a lookup that starts at preferred slot `p`: the
callback's result on slot `(p + j) % item_count` at probe distance `j` (or
`none` if the slot is unoccupied, mismatched, or the callback declines). -/
def hitAt (x : Index V) (f : IndexEntry V → Option R) (suffix : List Nat)
    (p j : Nat) : Option R :=
  hit f suffix j (x.read_item ((p + j) % x.item_count))

/-- The `j`-th probed slot has `skipped_count == 0` (the walk's stop signal). -/
def stopAt (x : Index V) (p j : Nat) : Prop :=
  (x.read_item ((p + j) % x.item_count)).skipped_count = 0

/-- The preferred slot recovered from a stored entry at slot `s` with
correction `c`: `(s + item_count - c) % item_count` (the computation used by
`from_existing`). -/
def prefSlot (n s c : Nat) : Nat := (s + n - c) % n

/-- Whether slot `t` holds an entry. -/
def slotOccupiedB (x : Index V) (t : Nat) : Bool :=
  (x.read_item t).maybe_entry.isSome

/-- The contribution of slot `s` to the walk-trail count of slot `t`: an entry
stored at slot `s` with correction `c` walked (and incremented) the `c` slots
starting at its preferred slot before settling at `s`. -/
def passSummand (x : Index V) (t s : Nat) : Nat :=
  match (x.read_item s).maybe_entry with
  | some e =>
    pathCount x.item_count (prefSlot x.item_count s e.key_correction)
      e.key_correction t
  | none => 0

/-- How many times the walk trails of the occupied entries cover slot `t`. -/
def passTotal (x : Index V) (t : Nat) : Nat :=
  ((List.range x.item_count).map (passSummand x t)).sum

/-- The number of occupied entries whose preferred slot is `t` but which are
stored in a later slot (correction > 0) — the quantity claim C5 says each
skipped count equals. -/
def prefCount (x : Index V) (t : Nat) : Nat :=
  (List.range x.item_count).countP fun s =>
    match (x.read_item s).maybe_entry with
    | some e =>
      decide (0 < e.key_correction) &&
        decide (prefSlot x.item_count s e.key_correction = t)
    | none => false

/-- The multiset of addresses stored in the occupied slots. -/
def addressesM (x : Index V) : Multiset V :=
  Multiset.filterMap
    (fun s => ((x.read_item s).maybe_entry).map IndexEntry.address)
    (Multiset.range x.item_count)

/-- Claim C5's invariant, word for word: every occupied slot `s` with
correction `c` has every slot strictly between its preferred slot
`(s - c) % item_count` and `s` occupied, and each slot's skipped count
equals the number of occupied entries preferring it but stored later. -/
def C5OriginalHolds (x : Index V) : Bool :=
  ((List.range x.item_count).all fun s =>
    match (x.read_item s).maybe_entry with
    | some e =>
      (List.range e.key_correction).all fun j =>
        j == 0 ||
          slotOccupiedB x
            ((prefSlot x.item_count s e.key_correction + j) % x.item_count)
    | none => true) &&
  ((List.range x.item_count).all fun t =>
    (x.read_item t).skipped_count == prefCount x t)

/-- The amended index invariant: every stored correction is below
`item_count`, and every slot's skipped count equals the number of occupied
entries whose insertion walk passed over it. -/
def AmendedIndexInv (x : Index V) : Prop :=
  (∀ s e, (x.read_item s).maybe_entry = some e → e.key_correction < x.item_count) ∧
  (∀ t, t < x.item_count → (x.read_item t).skipped_count = passTotal x t)

/-- Geometry well-formedness: the backing array has `1 << index_bits` slots. -/
def IndexWF (x : Index V) : Prop := x.items.length = 2 ^ x.index_bits

/-- One successful index operation as constrained by the amended claim: a
successful `edit_in` whose callback declines every existing entry (i.e. the
operation ends at an empty slot, inserting or abandoning), or any successful
`edit_out`. -/
inductive IndexStep : Index V → Index V → Prop where
  | editIn {R : Type} (hash : List Nat) (f : Option V → Option (Option V × R))
      (r : R) (x x' : Index V)
      (hf : ∀ v, f (some v) = none)
      (h : x.edit_in hash f = (x', .ok r)) : IndexStep x x'
  | editOut {R : Type} (hash : List Nat) (g : V → Option (Option (Option V) × R))
      (r : R) (fuel : Nat) (x x' : Index V)
      (h : x.edit_out hash g fuel = (x', some (.ok r))) : IndexStep x x'

end Index

/-- Concrete one-slot index (index_bits 0) whose only slot is occupied by a
non-matching entry: used to exhibit `edit_in` returning `IndexFull` with a
mutated skip count. -/
def c8CexIndex : Index Nat := ⟨[⟨0, some ⟨0, [9], 0⟩⟩], 1, 0⟩

/-- A callback of the exact form claim C8 talks about: abandon (`Ok((None, 42))`)
when given `None`, decline when given an existing address. -/
def c8CexCallback : Option Nat → Option (Option Nat × Nat) := fun o =>
  match o with
  | some _ => none
  | none => some (none, 42)

/-- Four-slot index whose preferred slot 0 is occupied by a non-matching
entry, so an abandoning `edit_in` walks one slot before undoing its
increment. -/
def c8WitnessIndex : Index Nat :=
  ⟨[⟨0, some ⟨0, [9], 7⟩⟩, ⟨0, none⟩, ⟨0, none⟩, ⟨0, none⟩], 1, 2⟩

/-- Abandoning callback (with unit return) used by the C8 witness. -/
def c8WitnessCallback : Option Nat → Option (Option Nat × Unit) := fun o =>
  match o with
  | some _ => none
  | none => some (none, ())

/-- Insert-only callback used by the C5 scenario: decline existing entries,
install address `a` in the first empty slot. -/
def c5CexCallback (a : Nat) : Option Nat → Option (Option Nat × Unit) := fun o =>
  match o with
  | some _ => none
  | none => some (some a, ())

/-- Unconditional-erase callback used by the C5 scenario (the shape
`Database::remove` uses once the refcount reaches zero). -/
def c5CexErase : Nat → Option (Option (Option Nat) × Nat) := fun _ =>
  some (some none, 0)

/-- C5 scenario, step 1: insert address 1 at preferred slot 0 of a fresh
4-slot index. -/
def c5CexStep1 : Index Nat × Index.EditInRes Unit :=
  (Index.openFresh Nat 1 2).edit_in [0, 0, 0, 0, 0, 0, 0, 0] (c5CexCallback 1)

/-- C5 scenario, step 2: insert address 2, also preferring slot 0 (suffix 4). -/
def c5CexStep2 : Index Nat × Index.EditInRes Unit :=
  c5CexStep1.1.edit_in [4, 0, 0, 0, 0, 0, 0, 0] (c5CexCallback 2)

/-- C5 scenario, step 3: insert address 3, also preferring slot 0 (suffix 8). -/
def c5CexStep3 : Index Nat × Index.EditInRes Unit :=
  c5CexStep2.1.edit_in [8, 0, 0, 0, 0, 0, 0, 0] (c5CexCallback 3)

/-- C5 scenario, step 4: erase the middle entry (suffix 4, stored at slot 1). -/
def c5CexStep4 : Index Nat × Option (Except Unit Nat) :=
  c5CexStep3.1.edit_out [4, 0, 0, 0, 0, 0, 0, 0] c5CexErase 8

/-- Two-slot source index (key_bytes 1, index_bits 1) holding one entry with
address 77: used by the C4 witness. -/
def c4WitnessSource : Index Nat := ⟨[⟨0, some ⟨0, [5], 77⟩⟩, ⟨0, none⟩], 1, 1⟩

/-- The index a successful shrink-direction `from_existing` builds from the
C4 witness source. -/
def c4WitnessResult : Index Nat :=
  match Index.from_existing c4WitnessSource 1 1 with
  | some (.ok r) => r
  | _ => Index.openFresh Nat 1 1

/-! ## Content tables (src/table.rs)

`Table<K>`: the decoded table header plus the stored header-region bytes of
every backed slot (`data.len() / item_size` slots are backed; reading an
unbacked slot is the slice-indexing panic, modelled through `decode`
returning `none` on the empty byte string).  Machine widths: `used` and
`touched_count` are `u32`, `next_free` (and a `TableItemIndex`) `u16`,
`external_data` a `u64`.  `allocate`'s result is `none` for a panic
(`expect`/`assert!`), and otherwise carries the source's `Option` result and
the post-state. -/

structure TableHeader where
  used : Nat
  next_free : Nat
  touched_count : Nat
  external_data : Nat
deriving DecidableEq, Repr

structure Table where
  header : TableHeader
  slots : List (List Nat)
  item_count : Nat
  value_size : Nat
  key_size : Nat
  correction_factor : CorrectionFactor
  contents : List (List Nat)
deriving DecidableEq, Repr

namespace Table

/-- The per-class width of the size-correction field. -/
def cfSize : CorrectionFactor → Nat
  | .None => 0
  | .U8 => 1
  | .U16 => 2
  | .U32 => 4

/-- `item_header_size`: `(size_of::<RefCount>() + correction_factor_size +
key_size).max(1 + size_of::<TableItemIndex>())`. -/
def item_header_size (t : Table) : Nat :=
  max (2 + cfSize t.correction_factor + t.key_size) 3

/-- Read the header bytes of slot `i` (an unbacked slot reads as the empty
string, which `decode` rejects, modelling the out-of-bounds panic). -/
def readSlot (t : Table) (i : Nat) : List Nat := t.slots.getD i []

/-- Overwrite the header bytes of slot `i`. -/
def writeSlot (t : Table) (i : Nat) (bytes : List Nat) : Table :=
  { t with slots := t.slots.set i bytes }

/-- `Table::extend`: the new `item_count` is
`((backed * 2).min(item_count)).max(min_items)` — the assignment clobbers the
configured capacity — and the file is resized to back exactly that many
items, zero-filling fresh space. -/
def extend (t : Table) (min_items : Nat) : Table :=
  { t with
    item_count := max (min (t.slots.length * 2) t.item_count) min_items,
    slots :=
      t.slots.take (max (min (t.slots.length * 2) t.item_count) min_items)
        ++ List.replicate
          (max (min (t.slots.length * 2) t.item_count) min_items
            - t.slots.length)
          (List.replicate t.item_header_size 0) }

/-- `Table::ensure_referencable` (`none` is the `assert!` panic). -/
def ensure_referencable (t : Table) (index : Nat) : Option Table :=
  if t.item_count ≤ index then none
  else if t.slots.length ≤ index then some (t.extend (index + 1)) else some t

/-- `Table::allocate`.  Branch order and every check mirror the source:
in-freelist reuse when `used < touched_count` (the `mutate_item_header`
bounds `Err` surfaces through `.ok()?` as a `None` return), virgin-slot use
when `touched_count < item_count` (after `ensure_referencable`), and `None`
when neither applies.  The closure's `as_next_free` call and the
`assert!(matches!(item, ItemHeader::Free(_)))` are panics on an `Allocated`
slot, as is a `decode` failure (`expect("Database corrupt?")`). -/
def allocate (t : Table) (key : List Nat) (size : Nat) :
    Option (Option Nat × Table) :=
  if t.header.used < t.header.touched_count then
    if t.item_count ≤ t.header.next_free then some (none, t)
    else
      match ItemHeader.decode t.correction_factor t.key_size
          (t.readSlot t.header.next_free) with
      | none => none
      | some (.Allocated _ _ _) => none
      | some (.Free new_next_free) =>
        match (ItemHeader.Allocated 1
            (if 0 < t.value_size then (t.value_size - size) % 2 ^ 32 else 0)
            key).encode_to t.correction_factor with
        | none => none
        | some bytes =>
          some (some t.header.next_free,
            { t.writeSlot t.header.next_free bytes with header :=
              ⟨(t.header.used + 1) % 2 ^ 32, new_next_free,
                t.header.touched_count,
                if t.value_size = 0 then
                  (t.header.external_data + size) % 2 ^ 64
                else t.header.external_data⟩ })
  else
    if t.header.touched_count < t.item_count then
      match t.ensure_referencable (t.header.touched_count % 65536) with
      | none => none
      | some t0 =>
        if t0.item_count ≤ t.header.touched_count % 65536 then some (none, t0)
        else
          match ItemHeader.decode t.correction_factor t.key_size
              (t0.readSlot (t.header.touched_count % 65536)) with
          | none => none
          | some (.Allocated _ _ _) => none
          | some (.Free _) =>
            match (ItemHeader.Allocated 1
                (if 0 < t.value_size then (t.value_size - size) % 2 ^ 32 else 0)
                key).encode_to t.correction_factor with
            | none => none
            | some bytes =>
              some (some (t.header.touched_count % 65536),
                { t0.writeSlot (t.header.touched_count % 65536) bytes with
                  header :=
                  ⟨(t.header.used + 1) % 2 ^ 32, t.header.next_free,
                    (t.header.touched_count + 1) % 2 ^ 32,
                    if t.value_size = 0 then
                      (t.header.external_data + size) % 2 ^ 64
                    else t.header.external_data⟩ })
    else some (none, t)

/-- The documented table-header and free-list invariants: `used` never
exceeds `touched_count`, which never exceeds `item_count` (at most 65536
slots, a `u16`'s range); when the free list is in play its head is a backed,
in-range slot holding a `Free` record; and a touched-but-backed virgin slot
holds a `Free` record. -/
def TableWF (t : Table) : Prop :=
  t.header.used ≤ t.header.touched_count ∧
  t.header.touched_count ≤ t.item_count ∧
  t.item_count ≤ 65536 ∧
  (t.header.used < t.header.touched_count →
    t.header.next_free < t.item_count ∧
    ∃ nf, ItemHeader.decode t.correction_factor t.key_size
      (t.readSlot t.header.next_free) = some (.Free nf)) ∧
  (t.header.touched_count < t.item_count →
    t.header.touched_count < t.slots.length →
    ∃ nf, ItemHeader.decode t.correction_factor t.key_size
      (t.readSlot t.header.touched_count) = some (.Free nf))

/-- `Table::item_header`: `Err` for an out-of-range slot, panic (`none`) when
the stored bytes do not decode. -/
def item_header_of (t : Table) (i : Nat) : Option (Except Unit ItemHeader) :=
  if t.item_count ≤ i then some (.error ())
  else
    match ItemHeader.decode t.correction_factor t.key_size (t.readSlot i) with
    | none => none
    | some h => some (.ok h)

/-- `ItemHeader::as_allocation`: panic (`none`) on a `Free` record, `Err` on a
key mismatch, otherwise the refcount and size correction. -/
def as_allocation (h : ItemHeader) (check_hash : Option (List Nat)) :
    Option (Except Unit (Nat × Nat)) :=
  match h with
  | .Free _ => none
  | .Allocated rc sc key =>
    match check_hash with
    | none => some (.ok (rc, sc))
    | some hh => if hh = key then some (.ok (rc, sc)) else some (.error ())

/-- `Table::item_ref_count`. -/
def item_ref_count (t : Table) (i : Nat) (check_hash : Option (List Nat)) :
    Option (Except Unit Nat) :=
  match t.item_header_of i with
  | none => none
  | some (.error ()) => some (.error ())
  | some (.ok h) =>
    match as_allocation h check_hash with
    | none => none
    | some (.error ()) => some (.error ())
    | some (.ok (rc, _)) => some (.ok rc)

/-- `Table::item_ref` for a sized class: the stored value region (zero-backed
by the mapped file) truncated to `value_size - size_correction`. -/
def item_ref (t : Table) (i : Nat) (check_hash : Option (List Nat)) :
    Option (Except Unit (List Nat)) :=
  match t.item_header_of i with
  | none => none
  | some (.error ()) => some (.error ())
  | some (.ok h) =>
    match as_allocation h check_hash with
    | none => none
    | some (.error ()) => some (.error ())
    | some (.ok (_, sc)) =>
      some (.ok ((t.contents.getD i [] ++ List.replicate t.value_size 0).take
        (t.value_size - sc)))

/-- `Table::bump`: re-encode with the incremented refcount (a `u16`, wrapping
in release); the `encode_to` assert panics (`none`) at 32768. -/
def bump (t : Table) (i : Nat) (check_hash : Option (List Nat)) :
    Option (Except Unit (Nat × Table)) :=
  match t.item_header_of i with
  | none => none
  | some (.error ()) => some (.error ())
  | some (.ok (.Free _)) => some (.error ())
  | some (.ok (.Allocated rc sc key)) =>
    if (match check_hash with | none => true | some hh => hh == key) then
      match (ItemHeader.Allocated ((rc + 1) % 65536) sc key).encode_to
          t.correction_factor with
      | none => none
      | some bytes => some (.ok ((rc + 1) % 65536, t.writeSlot i bytes))
    else some (.error ())

/-- `Table::free`: decrement the refcount, or — at refcount 1 — stitch the
slot onto the free list and decrement `used` (whose `checked_sub` panic is
`none`; the `value_size == 0` external-file path, reachable only for the
`Oversize` class, is likewise a dead end here). -/
def free (t : Table) (i : Nat) (check_hash : Option (List Nat)) :
    Option (Except Unit (Nat × Table)) :=
  match t.item_header_of i with
  | none => none
  | some (.error ()) => some (.error ())
  | some (.ok (.Free _)) => some (.error ())
  | some (.ok (.Allocated rc sc key)) =>
    if (match check_hash with | none => true | some hh => hh == key) then
      if rc = 0 then none
      else if 1 < rc then
        match (ItemHeader.Allocated (rc - 1) sc key).encode_to
            t.correction_factor with
        | none => none
        | some bytes => some (.ok (rc - 1, t.writeSlot i bytes))
      else
        if t.value_size = 0 then none
        else
          match (ItemHeader.Free t.header.next_free).encode_to
              t.correction_factor with
          | none => none
          | some bytes =>
            if t.header.used = 0 then none
            else
              some (.ok (0,
                { t.writeSlot i bytes with header :=
                  ⟨t.header.used - 1, i, t.header.touched_count,
                    t.header.external_data⟩ }))
    else some (.error ())

/-- Write `data` into slot `i`'s value region (`item_mut(...).copy_from_slice`;
the mapped file is always large enough, so the region list is grown on
demand). -/
def writeContents (t : Table) (i : Nat) (data : List Nat) : Table :=
  { t with contents :=
      (t.contents ++ List.replicate (i + 1 - t.contents.length) []).set i data }

end Table

/-- A full one-slot table (used = touched_count = item_count = 1) for the C10
witness. -/
def c10WitnessTable : Table :=
  ⟨⟨1, 0, 1, 0⟩, [[129, 1, 0, 42]], 1, 32, 1, .U8, [[7]]⟩

/-! ## The database facade (src/database.rs)

`Database<K>`: the decoded index slots (index items round-trip through
src/index_item.rs faithfully, so they are held as values with
`V = ContentAddress`), the per-class vectors of content tables, and the index
geometry of `Database::open`.  Keys (`K`) are raw byte lists of width
`key_size = K::SIZE`.  Unbounded probe loops take fuel; `none` anywhere is a
panic (`expect`/`assert!`/`unimplemented!`) or exhausted fuel. -/

structure ContentAddress where
  datum_size : DatumSize
  content_table : Nat
  entry_index : Nat
deriving DecidableEq, Repr

structure Database where
  index : List (IndexItem ContentAddress)
  sized_tables : List (List Table)
  suffix_len : Nat
  key_bytes : Nat
  index_mask : Nat
  index_full_bytes : Nat
  item_count : Nat
  key_size : Nat
deriving DecidableEq, Repr

namespace Database

/-- `Database::open` on an empty directory: a zeroed index of `1 << index_bits`
items and no content tables. -/
def openDb (key_bytes index_bits key_size : Nat) : Database :=
  ⟨List.replicate (2 ^ index_bits) (emptyItem ContentAddress),
    List.replicate 127 [],
    key_bytes - index_bits / 8, key_bytes, 2 ^ index_bits - 1, index_bits / 8,
    2 ^ index_bits, key_size⟩

/-- `Database::index_suffix_of`: the first 8 hash bytes as a little-endian
`u64`, masked; and the `hash[index_full_bytes..key_bytes]` suffix. -/
def index_suffix_of (d : Database) (hash : List Nat) : Nat × List Nat :=
  (leBytes (hash.take 8) &&& d.index_mask,
    (hash.drop d.index_full_bytes).take (d.key_bytes - d.index_full_bytes))

/-- `Database::read_item`. -/
def read_item (d : Database) (i : Nat) : IndexItem ContentAddress :=
  d.index.getD i (emptyItem ContentAddress)

/-- `Database::write_item`. -/
def write_item (d : Database) (i : Nat) (item : IndexItem ContentAddress) :
    Database :=
  { d with index := d.index.set i item }

/-- The correction factor `Table::open` picks from the class's `size_range`. -/
def tableCf (ds : DatumSize) : CorrectionFactor :=
  match ds.size_range with
  | none => .None
  | some r =>
    if r = 0 then .None
    else if r ≤ 255 then .U8
    else if r ≤ 65535 then .U16
    else .U32

/-- A freshly created content table for a class: zeroed header, nothing
backed, `item_count = contents_entries`. -/
def newTable (ds : DatumSize) (key_size : Nat) : Table :=
  ⟨⟨0, 0, 0, 0⟩, [], ds.contents_entries, (ds.size).getD 0, key_size,
    tableCf ds, []⟩

/-- The per-class scan of `Database::allocate`: try each existing table in
order; `some (none, ts)` means every table declined. -/
def allocTablesGo (key : List Nat) (actual_size : Nat) :
    List Table → Option (Option (Nat × Nat) × List Table)
  | [] => some (none, [])
  | tb :: rest =>
    match tb.allocate key actual_size with
    | none => none
    | some (some ei, tb') => some (some (0, ei), tb' :: rest)
    | some (none, tb') =>
      match allocTablesGo key actual_size rest with
      | none => none
      | some (r, rest') =>
        some (r.map (fun p => (p.1 + 1, p.2)), tb' :: rest')

/-- `Database::allocate`: scan the class's tables, else create a new table
(whose allocation is `expect`ed to succeed). -/
def allocate (d : Database) (ds : DatumSize) (key : List Nat)
    (actual_size : Nat) : Option (ContentAddress × Database) :=
  match ds with
  | .Oversize => none
  | .Size s =>
    match allocTablesGo key actual_size (d.sized_tables.getD s []) with
    | none => none
    | some (some (ct, ei), ts') =>
      some (⟨.Size s, ct, ei⟩,
        { d with sized_tables := d.sized_tables.set s ts' })
    | some (none, ts') =>
      match (newTable (.Size s) d.key_size).allocate key actual_size with
      | none => none
      | some (none, _) => none
      | some (some ei, t') =>
        some (⟨.Size s, ts'.length, ei⟩,
          { d with sized_tables := d.sized_tables.set s (ts' ++ [t']) })

/-- `Database::item_ref` (vector indexing out of range is a panic). -/
def item_ref (d : Database) (addr : ContentAddress)
    (check_hash : Option (List Nat)) : Option (Except Unit (List Nat)) :=
  match addr.datum_size with
  | .Oversize => none
  | .Size s =>
    match (d.sized_tables.getD s [])[addr.content_table]? with
    | none => none
    | some tb => tb.item_ref addr.entry_index check_hash

/-- `Database::item_ref_count`. -/
def item_ref_count (d : Database) (addr : ContentAddress)
    (check_hash : Option (List Nat)) : Option (Except Unit Nat) :=
  match addr.datum_size with
  | .Oversize => none
  | .Size s =>
    match (d.sized_tables.getD s [])[addr.content_table]? with
    | none => none
    | some tb => tb.item_ref_count addr.entry_index check_hash

/-- `Database::bump`. -/
def bump (d : Database) (addr : ContentAddress)
    (check_hash : Option (List Nat)) : Option (Except Unit (Nat × Database)) :=
  match addr.datum_size with
  | .Oversize => none
  | .Size s =>
    match (d.sized_tables.getD s [])[addr.content_table]? with
    | none => none
    | some tb =>
      match tb.bump addr.entry_index check_hash with
      | none => none
      | some (.error ()) => some (.error ())
      | some (.ok (rc, tb')) =>
        let ts2 := (d.sized_tables.getD s []).set addr.content_table tb'
        some (.ok (rc, { d with sized_tables := d.sized_tables.set s ts2 }))

/-- `Database::free`. -/
def free (d : Database) (addr : ContentAddress)
    (check_hash : Option (List Nat)) : Option (Except Unit (Nat × Database)) :=
  match addr.datum_size with
  | .Oversize => none
  | .Size s =>
    match (d.sized_tables.getD s [])[addr.content_table]? with
    | none => none
    | some tb =>
      match tb.free addr.entry_index check_hash with
      | none => none
      | some (.error ()) => some (.error ())
      | some (.ok (rc, tb')) =>
        let ts2 := (d.sized_tables.getD s []).set addr.content_table tb'
        some (.ok (rc, { d with sized_tables := d.sized_tables.set s ts2 }))

/-- The `put_with_hash` copy of the data into the freshly allocated slot
(`item_mut(..).copy_from_slice(data)`). -/
def copyIn (d : Database) (addr : ContentAddress) (data : List Nat) :
    Option Database :=
  match addr.datum_size with
  | .Oversize => none
  | .Size s =>
    match (d.sized_tables.getD s [])[addr.content_table]? with
    | none => none
    | some tb =>
      let ts2 := (d.sized_tables.getD s []).set addr.content_table
        (tb.writeContents addr.entry_index data)
      some { d with sized_tables := d.sized_tables.set s ts2 }

/-- The loop of `Database::with_item_try`, fuelled. -/
def withItemTryGo (d : Database) (f : IndexEntry ContentAddress →
    Option (Except Unit R)) (suffix : List Nat) :
    Nat → Nat → Nat → Option (Option R)
  | 0, _, _ => none
  | fuel + 1, index, correction =>
    let item := d.read_item index
    match
      (match item.maybe_entry with
      | some entry =>
        if entry.key_correction = correction ∧ entry.key_suffix = suffix then
          f entry
        else some (.error ())
      | none => some (.error ())) with
    | none => none
    | some (.ok result) => some (some result)
    | some (.error ()) =>
      if item.skipped_count = 0 then some none
      else withItemTryGo d f suffix fuel ((index + 1) % d.item_count)
        (correction + 1)

/-- `Database::with_item_try`. -/
def with_item_try (d : Database) (hash : List Nat)
    (f : IndexEntry ContentAddress → Option (Except Unit R)) (fuel : Nat) :
    Option (Option R) :=
  withItemTryGo d f (d.index_suffix_of hash).2 fuel (d.index_suffix_of hash).1 0

/-- `Database::get`. -/
def get (d : Database) (hash : List Nat) (fuel : Nat) :
    Option (Option (List Nat)) :=
  d.with_item_try hash (fun entry => d.item_ref entry.address (some hash)) fuel

/-- `Database::get_ref_count` (`unwrap_or(0)`). -/
def get_ref_count (d : Database) (hash : List Nat) (fuel : Nat) : Option Nat :=
  (d.with_item_try hash
    (fun entry => d.item_ref_count entry.address (some hash)) fuel).map
    (fun r => r.getD 0)

/-- The loop of `Database::put_with_hash`, fuelled: bump a matching entry
(falling through to the collision path if `bump` errs), insert into the first
empty slot, otherwise mark the slot skipped and continue. -/
def putGo (hash data suffix : List Nat) :
    Nat → Database → Nat → Nat → Option Database
  | 0, _, _, _ => none
  | fuel + 1, d, insert_index, key_correction =>
    let item := d.read_item insert_index
    match item.maybe_entry with
    | some e =>
      if e.key_suffix = suffix ∧ e.key_correction = key_correction then
        match d.bump e.address (some hash) with
        | none => none
        | some (.ok (_, d')) => some d'
        | some (.error ()) =>
          putGo hash data suffix fuel
            (d.write_item insert_index
              ⟨item.skipped_count + 1, item.maybe_entry⟩)
            ((insert_index + 1) % d.item_count) (key_correction + 1)
      else
        putGo hash data suffix fuel
          (d.write_item insert_index ⟨item.skipped_count + 1, item.maybe_entry⟩)
          ((insert_index + 1) % d.item_count) (key_correction + 1)
    | none =>
      match d.allocate (DatumSize.nearest data.length) hash data.length with
      | none => none
      | some (addr, d1) =>
        match d1.copyIn addr data with
        | none => none
        | some d2 =>
          some (d2.write_item insert_index
            ⟨item.skipped_count, some ⟨key_correction, suffix, addr⟩⟩)

/-- `Database::put_with_hash`. -/
def put_with_hash (d : Database) (hash data : List Nat) (fuel : Nat) :
    Option Database :=
  putGo hash data (d.index_suffix_of hash).2 fuel d (d.index_suffix_of hash).1 0

/-- The skip-trail decrement of `Database::remove` (`checked_sub(1).expect`
panics, `none`, on underflow). -/
def decTrail : Nat → Nat → Database → Option Database
  | _, 0, d => some d
  | b, c + 1, d =>
    let item := d.read_item (b % d.item_count)
    if item.skipped_count = 0 then none
    else
      decTrail (b + 1) c
        (d.write_item (b % d.item_count)
          ⟨item.skipped_count - 1, item.maybe_entry⟩)

/-- The loop of `Database::remove`, fuelled. -/
def removeGo (hash suffix : List Nat) (orig_index : Nat) :
    Nat → Database → Nat → Nat → Option (Except Unit (Nat × Database))
  | 0, _, _, _ => none
  | fuel + 1, d, index, correction =>
    let item := d.read_item index
    match
      (match item.maybe_entry with
      | some entry =>
        if entry.key_correction = correction ∧ entry.key_suffix = suffix then
          some (entry.address)
        else none
      | none => none) with
    | some address =>
      match d.free address (some hash) with
      | none => none
      | some (.ok (refs_left, d1)) =>
        if refs_left = 0 then
          match decTrail orig_index correction
              (d1.write_item index ⟨item.skipped_count, none⟩) with
          | none => none
          | some d2 => some (.ok (refs_left, d2))
        else some (.ok (refs_left, d1))
      | some (.error ()) =>
        if item.skipped_count = 0 then some (.error ())
        else removeGo hash suffix orig_index fuel d ((index + 1) % d.item_count)
          (correction + 1)
    | none =>
      if item.skipped_count = 0 then some (.error ())
      else removeGo hash suffix orig_index fuel d ((index + 1) % d.item_count)
        (correction + 1)

/-- `Database::remove`. -/
def remove (d : Database) (hash : List Nat) (fuel : Nat) :
    Option (Except Unit (Nat × Database)) :=
  removeGo hash (d.index_suffix_of hash).2 (d.index_suffix_of hash).1 fuel d
    (d.index_suffix_of hash).1 0

end Database

/-- The C1/C2 scenario's database: key_bytes 4, index_bits 4 (a 16-slot
index), 8-byte keys. -/
def c12Db0 : Database := Database.openDb 4 4 8

/-- The C1/C2 scenario's hash: preferred index slot 3, suffix `[3,0,0,0]`. -/
def c12Hash : List Nat := [3, 0, 0, 0, 0, 0, 0, 0]

/-- State after `put_with_hash(c12Hash, [1])` on the fresh database. -/
def c12Db1 : Database := (c12Db0.put_with_hash c12Hash [1] 16).getD c12Db0

/-- State after one `remove(c12Hash)` from `c12Db1`. -/
def c12Db2 : Database :=
  match c12Db1.remove c12Hash 16 with
  | some (.ok (_, d)) => d
  | _ => c12Db0

/-- State after `put_with_hash(c12Hash, [2])` on `c12Db2`. -/
def c1Db3 : Database := (c12Db2.put_with_hash c12Hash [2] 16).getD c12Db0

end Subdb

namespace Subdb

/-! ## Theorems -/

@[simp] theorem natToLeBytes_length (w v : Nat) : (natToLeBytes w v).length = w := by
  induction w generalizing v with
  | zero => rfl
  | succ w ih => simp [natToLeBytes, ih]

/-- Sanity: the embedded `size` and `nearest` agree with the repository's own
unit test values (src/datum_size.rs, `datum_size_works`). -/
theorem datum_size_matches_unit_tests :
    DatumSize.size (.Size 0) = some 32 ∧ DatumSize.size (.Size 1) = some 36 ∧
    DatumSize.size (.Size 9) = some 72 ∧ DatumSize.size (.Size 31) = some 480 ∧
    DatumSize.size (.Size 32) = some 512 ∧ DatumSize.size (.Size 40) = some 2048 ∧
    DatumSize.size (.Size 62) = some 98304 ∧ DatumSize.size (.Size 63) = none ∧
    DatumSize.nearest 33 = .Size 1 ∧ DatumSize.nearest 64 = .Size 8 ∧
    DatumSize.nearest 98304 = .Size 62 ∧ DatumSize.nearest 98305 = .Oversize := by
  refine ⟨rfl, rfl, rfl, rfl, rfl, rfl, rfl, rfl, ?_, ?_, ?_, ?_⟩ <;> decide

namespace Index

variable {V : Type} {R : Type}

theorem index_suffix_of_fst_lt (x : Index V) (hash : List Nat) :
    (x.index_suffix_of hash).1 < 2 ^ x.index_bits :=
  Nat.and_lt_two_pow _ (Nat.sub_lt (Nat.pos_pow_of_pos _ (by decide)) (by decide))

theorem withItemTryGo_some_some_iff (x : Index V) (f : IndexEntry V → Option R)
    (suffix : List Nat) (p : Nat) (hp : p < x.item_count) (r : R) :
    ∀ fuel c, (withItemTryGo x f suffix fuel ((p + c) % x.item_count) c = some (some r) ↔
      ∃ j, c ≤ j ∧ j < c + fuel ∧ x.hitAt f suffix p j = some r ∧
        ∀ i, c ≤ i → i < j → x.hitAt f suffix p i = none ∧ ¬ x.stopAt p i)
  | 0, c => by
    simp only [withItemTryGo]
    constructor
    · intro h; cases h
    · rintro ⟨j, h1, h2, -⟩; omega
  | fuel + 1, c => by
    have hmod : ((p + c) % x.item_count + 1) % x.item_count
        = (p + (c + 1)) % x.item_count := by
      rw [Nat.mod_add_mod, Nat.add_assoc]
    simp only [withItemTryGo]
    cases hhit : x.hitAt f suffix p c with
    | some res =>
      rw [show hit f suffix c (x.read_item ((p + c) % x.item_count)) = some res from hhit]
      constructor
      · intro h
        refine ⟨c, Nat.le_refl c, by omega, ?_, by omega⟩
        rw [hhit]; cases h; rfl
      · rintro ⟨j, h1, h2, h3, h4⟩
        rcases Nat.eq_or_lt_of_le h1 with rfl | hlt
        · rw [hhit] at h3; cases h3; rfl
        · exact absurd hhit (by rw [(h4 c (Nat.le_refl c) hlt).1]; simp)
    | none =>
      rw [show hit f suffix c (x.read_item ((p + c) % x.item_count)) = none from hhit]
      by_cases hstop : (x.read_item ((p + c) % x.item_count)).skipped_count = 0
      · simp only [hstop, if_pos rfl]
        constructor
        · intro h; cases h
        · rintro ⟨j, h1, h2, h3, h4⟩
          rcases Nat.eq_or_lt_of_le h1 with rfl | hlt
          · rw [hhit] at h3; cases h3
          · exact absurd hstop (h4 c (Nat.le_refl c) hlt).2
      · rw [if_neg hstop, hmod,
          withItemTryGo_some_some_iff x f suffix p hp r fuel (c + 1)]
        constructor
        · rintro ⟨j, h1, h2, h3, h4⟩
          refine ⟨j, by omega, by omega, h3, ?_⟩
          intro i hi1 hi2
          rcases Nat.eq_or_lt_of_le hi1 with rfl | hlt
          · exact ⟨hhit, hstop⟩
          · exact h4 i hlt hi2
        · rintro ⟨j, h1, h2, h3, h4⟩
          rcases Nat.eq_or_lt_of_le h1 with rfl | hlt
          · rw [hhit] at h3; cases h3
          · exact ⟨j, hlt, by omega, h3, fun i hi1 hi2 => h4 i (by omega) hi2⟩

theorem withItemTryGo_some_none_iff (x : Index V) (f : IndexEntry V → Option R)
    (suffix : List Nat) (p : Nat) (hp : p < x.item_count) :
    ∀ fuel c, (withItemTryGo x f suffix fuel ((p + c) % x.item_count) c = some none ↔
      ∃ j, c ≤ j ∧ j < c + fuel ∧ x.hitAt f suffix p j = none ∧ x.stopAt p j ∧
        ∀ i, c ≤ i → i < j → x.hitAt f suffix p i = none ∧ ¬ x.stopAt p i)
  | 0, c => by
    simp only [withItemTryGo]
    constructor
    · intro h; cases h
    · rintro ⟨j, h1, h2, -⟩; omega
  | fuel + 1, c => by
    have hmod : ((p + c) % x.item_count + 1) % x.item_count
        = (p + (c + 1)) % x.item_count := by
      rw [Nat.mod_add_mod, Nat.add_assoc]
    simp only [withItemTryGo]
    cases hhit : x.hitAt f suffix p c with
    | some res =>
      rw [show hit f suffix c (x.read_item ((p + c) % x.item_count)) = some res from hhit]
      constructor
      · intro h; cases h
      · rintro ⟨j, h1, h2, h3, h4, h5⟩
        rcases Nat.eq_or_lt_of_le h1 with rfl | hlt
        · rw [hhit] at h3; cases h3
        · exact absurd hhit (by rw [(h5 c (Nat.le_refl c) hlt).1]; simp)
    | none =>
      rw [show hit f suffix c (x.read_item ((p + c) % x.item_count)) = none from hhit]
      by_cases hstop : (x.read_item ((p + c) % x.item_count)).skipped_count = 0
      · simp only [hstop, if_pos rfl]
        constructor
        · intro _
          exact ⟨c, Nat.le_refl c, by omega, hhit, hstop, by omega⟩
        · intro _; rfl
      · rw [if_neg hstop, hmod,
          withItemTryGo_some_none_iff x f suffix p hp fuel (c + 1)]
        constructor
        · rintro ⟨j, h1, h2, h3, h4, h5⟩
          refine ⟨j, by omega, by omega, h3, h4, ?_⟩
          intro i hi1 hi2
          rcases Nat.eq_or_lt_of_le hi1 with rfl | hlt
          · exact ⟨hhit, hstop⟩
          · exact h5 i hlt hi2
        · rintro ⟨j, h1, h2, h3, h4, h5⟩
          rcases Nat.eq_or_lt_of_le h1 with rfl | hlt
          · exact absurd h4 hstop
          · exact ⟨j, hlt, by omega, h3, h4, fun i hi1 hi2 => h5 i (by omega) hi2⟩

/-- C6: for every index, hash and callback, `with_item_try` probes slots in
order starting at the preferred slot `(p + j) % item_count` with probe
distance `j = 0, 1, 2, …`; it invokes the callback only on occupied entries
whose `key_correction` equals the current probe distance and whose
`key_suffix` equals the hash's suffix (packaged in `hitAt`); it returns the
first `Ok` result of the callback; and it returns `None` (key absent) as soon
as a probed slot with `skipped_count == 0` yields no successful callback.
Both possible results of the source loop are characterised; the fuel bound
stands in for the source's unbounded loop. -/
theorem c6_with_item_try_probe_order (x : Index V) (hash : List Nat)
    (f : IndexEntry V → Option R) (fuel : Nat) (p : Nat) (suffix : List Nat)
    (hps : x.index_suffix_of hash = (p, suffix))
    (hn : x.items.length = 2 ^ x.index_bits) :
    (∀ r, x.with_item_try hash f fuel = some (some r) ↔
      ∃ j, j < fuel ∧ x.hitAt f suffix p j = some r ∧
        ∀ i, i < j → x.hitAt f suffix p i = none ∧ ¬ x.stopAt p i) ∧
    (x.with_item_try hash f fuel = some none ↔
      ∃ j, j < fuel ∧ x.hitAt f suffix p j = none ∧ x.stopAt p j ∧
        ∀ i, i < j → x.hitAt f suffix p i = none ∧ ¬ x.stopAt p i) := by
  have hp : p < x.item_count := by
    have h := index_suffix_of_fst_lt x hash
    rw [hps] at h
    simpa [item_count, hn] using h
  have hstart : x.with_item_try hash f fuel
      = withItemTryGo x f suffix fuel ((p + 0) % x.item_count) 0 := by
    rw [with_item_try, hps]
    simp [Nat.mod_eq_of_lt hp]
  constructor
  · intro r
    rw [hstart, withItemTryGo_some_some_iff x f suffix p hp r fuel 0]
    constructor
    · rintro ⟨j, -, h2, h3, h4⟩
      exact ⟨j, by omega, h3, fun i hi => h4 i (Nat.zero_le i) hi⟩
    · rintro ⟨j, h1, h3, h4⟩
      exact ⟨j, Nat.zero_le j, by omega, h3, fun i _ hi => h4 i hi⟩
  · rw [hstart, withItemTryGo_some_none_iff x f suffix p hp fuel 0]
    constructor
    · rintro ⟨j, -, h2, h3, h4, h5⟩
      exact ⟨j, by omega, h3, h4, fun i hi => h5 i (Nat.zero_le i) hi⟩
    · rintro ⟨j, h1, h3, h4, h5⟩
      exact ⟨j, Nat.zero_le j, by omega, h3, h4, fun i _ hi => h5 i hi⟩

end Index

/-- Witness for C6 at a concrete input: on a fresh 4-slot index the very first
probe has `skipped_count == 0` and no entry, so lookup reports the key
absent. -/
theorem c6_with_item_try_probe_order_witness :
    (Index.openFresh Nat 1 2).with_item_try [0, 0, 0, 0, 0, 0, 0, 0]
      (fun e => some e.address) 1 = some none := by
  have h := Index.c6_with_item_try_probe_order (Index.openFresh Nat 1 2)
    [0, 0, 0, 0, 0, 0, 0, 0] (fun e => some e.address) 1 0 [0] rfl rfl
  exact h.2.mpr ⟨0, Nat.zero_lt_one, rfl, rfl, fun i hi => absurd hi (Nat.not_lt_zero i)⟩

/-- C3 (code bug): `ItemHeader::encode_to` followed by `ItemHeader::decode`
does not round-trip.  An `Allocated` header with refcount 1 encodes to bytes
`0x80 0x01 …`, and `decode`'s refcount expression — a shift by
`7 + second_byte` of the isolated top bit, due to operator precedence and the
inverted mask — turns it into refcount `32768`.  (A `Free` header does
round-trip; the third conjunct shows it, and the last records that the
decoded header differs from the encoded one.) -/
theorem c3_item_header_roundtrip_broken :
    ItemHeader.encode_to .U8 (.Allocated 1 0 [42]) = some [128, 1, 0, 42] ∧
    ItemHeader.decode .U8 1 [128, 1, 0, 42] = some (.Allocated 32768 0 [42]) ∧
    ItemHeader.decode .U8 1 ((ItemHeader.encode_to .U8 (.Free 7)).getD [])
      = some (.Free 7) ∧
    ItemHeader.Allocated 32768 0 [42] ≠ ItemHeader.Allocated 1 0 [42] := by
  exact ⟨rfl, rfl, rfl, by decide⟩

/-- C7 (code bug): `DatumSize::contents_entries` applies `.max(65536).min(1)`
to the 2 MiB quotient, which collapses every sized class's table capacity to
1 instead of the intended `min(65536, 2 MiB / size)` (the repo's own test
`content_addresses_encode_encode_ok` expects 65536 for class 0).  Oversize
capacity is 1 as claimed. -/
theorem c7_contents_entries_clamp_inverted :
    DatumSize.contents_entries (.Size 0) = 1 ∧
    DatumSize.contents_entries .Oversize = 1 ∧
    min (2048 * 1024 / 32) 65536 = 65536 := by
  exact ⟨rfl, rfl, rfl⟩

/-- C9 (counterexample): starting from `Options::new()`, the call sequence
`key_bytes(1)` then `index_bits(9)` produces `key_bytes = 1`,
`index_bits = 9`, violating `index_bits ≤ key_bytes · 8` — the `index_bits`
setter raises `key_bytes` only to `index_bits / 8` (floor), not the ceiling. -/
theorem c9_setter_invariant_cex :
    ¬ ((applyCalls Options.new [.keyBytes 1, .indexBits 9]).index_bits
      ≤ (applyCalls Options.new [.keyBytes 1, .indexBits 9]).key_bytes * 8) := by
  decide

/-- C9 (amended): for every sequence of `Options::key_bytes` /
`Options::index_bits` calls starting from `Options::new()`, the resulting
configuration satisfies `index_bits / 8 ≤ key_bytes` (equivalently
`index_bits ≤ key_bytes · 8 + 7`): each setter restores this weaker
consistency bound, which is off by up to 7 bits from the claimed
`index_bits ≤ key_bytes · 8` whenever `index_bits` is not a multiple of 8. -/
theorem c9_setter_invariant_amended (calls : List OptionsCall) :
    (applyCalls Options.new calls).index_bits / 8
      ≤ (applyCalls Options.new calls).key_bytes := by
  suffices h : ∀ o : Options, o.index_bits / 8 ≤ o.key_bytes →
      ∀ cs : List OptionsCall,
        (applyCalls o cs).index_bits / 8 ≤ (applyCalls o cs).key_bytes by
    exact h Options.new (by decide) calls
  intro o ho cs
  induction cs generalizing o with
  | nil => exact ho
  | cons c rest ih =>
    cases c with
    | keyBytes n =>
      refine ih (o.setKeyBytes n) ?_
      show min o.index_bits (n * 8) / 8 ≤ n
      have h8 : min o.index_bits (n * 8) / 8 ≤ n * 8 / 8 :=
        Nat.div_le_div_right (min_le_right o.index_bits (n * 8))
      omega
    | indexBits n =>
      refine ih (o.setIndexBits n) ?_
      exact le_max_right _ _

namespace Index

variable {V : Type} {R : Type}

theorem indexItem_parts_eq {a b : IndexItem V}
    (h1 : a.skipped_count = b.skipped_count)
    (h2 : a.maybe_entry = b.maybe_entry) : a = b := by
  cases a
  cases b
  exact congrArg₂ IndexItem.mk h1 h2

@[simp] theorem item_count_write_item (x : Index V) (i : Nat) (it : IndexItem V) :
    (x.write_item i it).item_count = x.item_count := by
  simp [write_item, item_count]

@[simp] theorem items_length_write_item (x : Index V) (i : Nat) (it : IndexItem V) :
    (x.write_item i it).items.length = x.items.length := by
  simp [write_item]

@[simp] theorem key_bytes_write_item (x : Index V) (i : Nat) (it : IndexItem V) :
    (x.write_item i it).key_bytes = x.key_bytes := rfl

@[simp] theorem index_bits_write_item (x : Index V) (i : Nat) (it : IndexItem V) :
    (x.write_item i it).index_bits = x.index_bits := rfl

theorem read_item_write_item (x : Index V) (i j : Nat) (it : IndexItem V) :
    (x.write_item i it).read_item j =
      if i = j ∧ j < x.items.length then it else x.read_item j := by
  by_cases hj : j < x.items.length
  · by_cases hij : i = j
    · subst hij
      rw [read_item, write_item, List.getD_eq_getElem _ _ (by simpa using hj)]
      simp [List.getElem_set, hj]
    · rw [read_item, write_item, List.getD_eq_getElem _ _ (by simpa using hj),
        read_item, List.getD_eq_getElem _ _ hj]
      simp [List.getElem_set, hij]
  · rw [read_item, write_item, List.getD_eq_default _ _ (by simpa using Nat.le_of_not_lt hj),
      if_neg (by tauto), read_item, List.getD_eq_default _ _ (Nat.le_of_not_lt hj)]

theorem read_item_write_item_self (x : Index V) (i : Nat) (it : IndexItem V)
    (hi : i < x.items.length) : (x.write_item i it).read_item i = it := by
  rw [read_item_write_item, if_pos ⟨rfl, hi⟩]

theorem read_item_write_item_ne (x : Index V) (i j : Nat) (it : IndexItem V)
    (hij : i ≠ j) : (x.write_item i it).read_item j = x.read_item j := by
  rw [read_item_write_item, if_neg (by tauto)]

@[simp] theorem items_length_bumpSkips (k : Nat) :
    ∀ (x : Index V) (start : Nat), (x.bumpSkips start k).items.length = x.items.length := by
  induction k with
  | zero => intro x start; rfl
  | succ k ih => intro x start; rw [bumpSkips, ih]; simp

@[simp] theorem item_count_bumpSkips (x : Index V) (start k : Nat) :
    (x.bumpSkips start k).item_count = x.item_count := by
  simp [item_count]

@[simp] theorem key_bytes_bumpSkips (k : Nat) :
    ∀ (x : Index V) (start : Nat), (x.bumpSkips start k).key_bytes = x.key_bytes := by
  induction k with
  | zero => intro x start; rfl
  | succ k ih => intro x start; rw [bumpSkips, ih]; rfl

@[simp] theorem index_bits_bumpSkips (k : Nat) :
    ∀ (x : Index V) (start : Nat), (x.bumpSkips start k).index_bits = x.index_bits := by
  induction k with
  | zero => intro x start; rfl
  | succ k ih => intro x start; rw [bumpSkips, ih]; rfl

theorem read_item_bumpSkips (k : Nat) :
    ∀ (x : Index V) (start : Nat), start < x.item_count → ∀ t,
      ((x.bumpSkips start k).read_item t).skipped_count
          = (x.read_item t).skipped_count + pathCount x.item_count start k t ∧
        ((x.bumpSkips start k).read_item t).maybe_entry = (x.read_item t).maybe_entry := by
  induction k with
  | zero => intro x start _ t; simp [bumpSkips, pathCount]
  | succ k ih =>
    intro x start hstart t
    have hn : 0 < x.item_count := lt_of_le_of_lt (Nat.zero_le start) hstart
    have hlen : start < x.items.length := hstart
    rw [bumpSkips]
    set x1 := x.write_item start
      ⟨(x.read_item start).skipped_count + 1, (x.read_item start).maybe_entry⟩ with hx1
    have hcount : x1.item_count = x.item_count := by rw [hx1, item_count_write_item]
    have h := ih x1 ((start + 1) % x.item_count)
      (by rw [hcount]; exact Nat.mod_lt _ hn) t
    rw [hcount] at h
    have hr1 : (x1.read_item t).skipped_count
        = (x.read_item t).skipped_count + (if start = t then 1 else 0) := by
      rw [hx1, read_item_write_item]
      by_cases hst : start = t
      · subst hst
        rw [if_pos ⟨rfl, hlen⟩, if_pos rfl]
      · rw [if_neg (by tauto), if_neg hst, Nat.add_zero]
    have hr2 : (x1.read_item t).maybe_entry = (x.read_item t).maybe_entry := by
      rw [hx1, read_item_write_item]
      by_cases hst : start = t
      · subst hst
        rw [if_pos ⟨rfl, hlen⟩]
      · rw [if_neg (by tauto)]
    refine ⟨?_, ?_⟩
    · rw [h.1, hr1, pathCount]
      omega
    · rw [h.2, hr2]

@[simp] theorem items_length_decrement (c : Nat) :
    ∀ (x : Index V) (b : Nat),
      (x.decrement_skip_counts b c).items.length = x.items.length := by
  induction c with
  | zero => intro x b; rfl
  | succ c ih => intro x b; rw [decrement_skip_counts, ih]; simp

@[simp] theorem item_count_decrement (x : Index V) (b c : Nat) :
    (x.decrement_skip_counts b c).item_count = x.item_count := by
  simp [item_count]

@[simp] theorem key_bytes_decrement (c : Nat) :
    ∀ (x : Index V) (b : Nat), (x.decrement_skip_counts b c).key_bytes = x.key_bytes := by
  induction c with
  | zero => intro x b; rfl
  | succ c ih => intro x b; rw [decrement_skip_counts, ih]; rfl

@[simp] theorem index_bits_decrement (c : Nat) :
    ∀ (x : Index V) (b : Nat), (x.decrement_skip_counts b c).index_bits = x.index_bits := by
  induction c with
  | zero => intro x b; rfl
  | succ c ih => intro x b; rw [decrement_skip_counts, ih]; rfl

theorem read_item_decrement (c : Nat) :
    ∀ (x : Index V) (b : Nat), 0 < x.item_count → ∀ t,
      ((x.decrement_skip_counts b c).read_item t).skipped_count
          = (x.read_item t).skipped_count
            - pathCount x.item_count (b % x.item_count) c t ∧
        ((x.decrement_skip_counts b c).read_item t).maybe_entry
          = (x.read_item t).maybe_entry := by
  induction c with
  | zero => intro x b _ t; simp [decrement_skip_counts, pathCount]
  | succ c ih =>
    intro x b hn t
    have hb : b % x.item_count < x.items.length := Nat.mod_lt _ hn
    rw [decrement_skip_counts]
    set x1 := x.write_item (b % x.item_count)
      ⟨(x.read_item (b % x.item_count)).skipped_count - 1,
        (x.read_item (b % x.item_count)).maybe_entry⟩ with hx1
    have hcount : x1.item_count = x.item_count := by rw [hx1, item_count_write_item]
    have h := ih x1 (b + 1) (by rw [hcount]; exact hn) t
    rw [hcount] at h
    have hstep : (b + 1) % x.item_count = (b % x.item_count + 1) % x.item_count := by
      rw [Nat.mod_add_mod]
    have hr1 : (x1.read_item t).skipped_count
        = (x.read_item t).skipped_count - (if b % x.item_count = t then 1 else 0) := by
      rw [hx1, read_item_write_item]
      by_cases hst : b % x.item_count = t
      · rw [if_pos ⟨hst, hst ▸ hb⟩, if_pos hst, hst]
      · rw [if_neg (by tauto), if_neg hst, Nat.sub_zero]
    have hr2 : (x1.read_item t).maybe_entry = (x.read_item t).maybe_entry := by
      rw [hx1, read_item_write_item]
      by_cases hst : b % x.item_count = t
      · rw [if_pos ⟨hst, hst ▸ hb⟩, hst]
      · rw [if_neg (by tauto)]
    refine ⟨?_, ?_⟩
    · rw [h.1, hr1, pathCount, hstep]
      omega
    · rw [h.2, hr2]

theorem index_ext_of (x y : Index V) (hl : x.items.length = y.items.length)
    (hkb : x.key_bytes = y.key_bytes) (hib : x.index_bits = y.index_bits)
    (h : ∀ t, t < x.items.length → x.read_item t = y.read_item t) : x = y := by
  obtain ⟨xi, xkb, xib⟩ := x
  obtain ⟨yi, ykb, yib⟩ := y
  simp only at hl hkb hib h ⊢
  subst hkb
  subst hib
  have hxy : xi = yi := by
    refine List.ext_getElem hl ?_
    intro i h1 h2
    have hh := h i h1
    rwa [read_item, read_item, List.getD_eq_getElem _ _ h1,
      List.getD_eq_getElem _ _ h2] at hh
  rw [hxy]

/-- The abandon path undoes the walk exactly: decrementing along the same
`k`-slot trail that was just incremented restores the original index. -/
theorem decrement_bumpSkips_cancel (x : Index V) (p k : Nat) (hp : p < x.item_count) :
    (x.bumpSkips p k).decrement_skip_counts p k = x := by
  have hn : 0 < x.item_count := lt_of_le_of_lt (Nat.zero_le p) hp
  refine index_ext_of _ _ (by simp) (by simp) (by simp) ?_
  intro t _
  have hb := read_item_bumpSkips k x p hp t
  have hd := read_item_decrement k (x.bumpSkips p k) p (by simpa using hn) t
  have hp1 : p % (x.bumpSkips p k).item_count = p := by
    rw [item_count_bumpSkips]
    exact Nat.mod_eq_of_lt hp
  rw [hp1, item_count_bumpSkips] at hd
  refine indexItem_parts_eq ?_ ?_
  · rw [hd.1, hb.1]
    omega
  · rw [hd.2, hb.2]

/-- Closed form of `stepSlot`: walking `k` steps from a start below
`item_count` lands on `(start + k) % item_count`. -/
theorem stepSlot_eq (n : Nat) : ∀ (k start : Nat), start < n →
    stepSlot n start k = (start + k) % n := by
  intro k
  induction k with
  | zero =>
    intro start h
    rw [stepSlot, Nat.add_zero, Nat.mod_eq_of_lt h]
  | succ k ih =>
    intro start h
    have hn : 0 < n := lt_of_le_of_lt (Nat.zero_le start) h
    rw [stepSlot, ih _ (Nat.mod_lt _ hn), Nat.mod_add_mod]
    congr 1
    omega

/-- What a successful `edit_in` walk does when the callback declines every
existing entry (`f (some _) = none`): it bumps the skip count of the first
`k` walk slots, finds the first unoccupied slot at walk offset `k`, and then
either installs the new entry there with correction `corr + k` (keeping that
slot's skip count), or — on abandon — walks the increments back. -/
theorem editInGo_ok_shape (f : Option V → Option (Option V × R)) (suffix : List Nat)
    (primary : Nat) (hf : ∀ v, f (some v) = none) :
    ∀ (fuel : Nat) (x : Index V) (tryIndex corr : Nat) (x' : Index V) (r : R),
      editInGo f suffix primary fuel x tryIndex corr = (x', .ok r) →
      ∃ k, k < fuel ∧
        (x.read_item (stepSlot x.item_count tryIndex k)).maybe_entry = none ∧
        ((∃ a, f none = some (some a, r) ∧
            x' = (x.bumpSkips tryIndex k).write_item
              (stepSlot x.item_count tryIndex k)
              ⟨(x.read_item (stepSlot x.item_count tryIndex k)).skipped_count,
                some ⟨corr + k, suffix, a⟩⟩) ∨
          (f none = some (none, r) ∧
            x' = (x.bumpSkips tryIndex k).decrement_skip_counts primary (corr + k))) := by
  intro fuel
  induction fuel with
  | zero =>
    intro x tryIndex corr x' r h
    rw [editInGo] at h
    cases h
  | succ fuel ih =>
    intro x tryIndex corr x' r h
    rw [editInGo] at h
    split at h
    · -- occupied slot: the callback declines, so the walk continues (or overflows)
      next e heq1 =>
      have hif : (if e.key_suffix = suffix ∧ e.key_correction = corr
          then f (some e.address) else none) = none := by
        split
        · exact hf _
        · rfl
      split at h
      · next result heq2 =>
        rw [hif] at heq2
        cases heq2
      · next heq2 =>
        split at h
        · -- skip count incremented, walk continues
          obtain ⟨k, hk, hempty, hbr⟩ :=
            ih (x.write_item tryIndex
              ⟨(x.read_item tryIndex).skipped_count + 1,
                (x.read_item tryIndex).maybe_entry⟩)
              ((tryIndex + 1) % x.item_count) (corr + 1) x' r h
          rw [item_count_write_item] at hempty hbr
          set s := stepSlot x.item_count ((tryIndex + 1) % x.item_count) k with hs
          have hsne : ¬ (tryIndex = s ∧ s < x.items.length) := by
            intro hc
            have hh : (x.read_item tryIndex).maybe_entry = none := by
              have h0 := hempty
              rw [read_item_write_item, if_pos hc] at h0
              exact h0
            rw [heq1] at hh
            cases hh
          have hreads : (x.write_item tryIndex
              ⟨(x.read_item tryIndex).skipped_count + 1,
                (x.read_item tryIndex).maybe_entry⟩).read_item s
              = x.read_item s := by
            rw [read_item_write_item, if_neg hsne]
          rw [hreads] at hempty hbr
          have harith : corr + 1 + k = corr + (k + 1) := by omega
          rw [harith] at hbr
          exact ⟨k + 1, by omega, hempty, hbr⟩
        · cases h
    · -- empty slot found
      next heq1 =>
      split at h
      · next heq2 =>
        cases h
      · next a r0 heq2 =>
        injection h with h1 h2
        injection h2 with h3
        subst h3
        refine ⟨0, by omega, heq1, Or.inl ⟨a, heq2, ?_⟩⟩
        rw [Nat.add_zero]
        exact h1.symm
      · next r0 heq2 =>
        injection h with h1 h2
        injection h2 with h3
        subst h3
        refine ⟨0, by omega, heq1, Or.inr ⟨heq2, ?_⟩⟩
        rw [Nat.add_zero]
        exact h1.symm

end Index

/-- C8 (counterexample): the claim quantifies over every index state, but on a
full one-slot index whose slot holds a non-matching entry, `edit_in` with an
abandoning callback (`Ok((None, 42))` on `None`) returns `Err(IndexFull)` —
not `Ok(42)` — and leaves the probed slot's `skipped_count` incremented, so
the index is not restored either. -/
theorem c8_edit_in_abandon_cex :
    (c8CexIndex.edit_in [0, 0, 0, 0, 0, 0, 0, 0] c8CexCallback).2 ≠ .ok 42 ∧
    (c8CexIndex.edit_in [0, 0, 0, 0, 0, 0, 0, 0] c8CexCallback).1 ≠ c8CexIndex := by
  decide

/-- C8 (amended): for every index state, hash and return value `r`, if the
callback declines every existing entry and returns `Ok((None, r))` (abandon)
when invoked with `None`, then whenever `edit_in` returns `Ok` it returns
exactly `r` and the index — every slot's entry and skipped count — is
identical to its state before the call (the walk's skip increments are all
undone).  When `edit_in` instead returns `Err(IndexFull)` the increments
along the walk remain, which is what the counterexample exhibits. -/
theorem c8_edit_in_abandon_restores (x : Index V) (hash : List Nat)
    (f : Option V → Option (Option V × R)) (r : R) (x' : Index V) (r' : R)
    (hn : x.items.length = 2 ^ x.index_bits)
    (hfSome : ∀ v, f (some v) = none)
    (hfNone : f none = some (none, r))
    (hok : x.edit_in hash f = (x', .ok r')) :
    x' = x ∧ r' = r := by
  have hp : (x.index_suffix_of hash).1 < x.item_count := by
    have h := Index.index_suffix_of_fst_lt x hash
    simpa [Index.item_count, hn] using h
  rw [Index.edit_in, Index.edit_in_position] at hok
  obtain ⟨k, hk, hempty, hbr⟩ :=
    Index.editInGo_ok_shape f (x.index_suffix_of hash).2 (x.index_suffix_of hash).1
      hfSome (min 32768 x.item_count) x (x.index_suffix_of hash).1 0 x' r' hok
  rcases hbr with ⟨a, hfn, -⟩ | ⟨hfn, hx⟩
  · rw [hfNone] at hfn
    cases hfn
  · rw [hfNone] at hfn
    injection hfn with hfn1
    injection hfn1 with hfn2 hfn3
    rw [Nat.zero_add] at hx
    exact ⟨by rw [hx, Index.decrement_bumpSkips_cancel x _ k hp], hfn3.symm⟩

/-- Witness for C8 (amended) at a concrete input: on `c8WitnessIndex` the
abandoning walk passes one occupied slot and the state is restored exactly. -/
theorem c8_edit_in_abandon_restores_witness :
    (c8WitnessIndex.edit_in [0, 0, 0, 0, 0, 0, 0, 0] c8WitnessCallback).1
      = c8WitnessIndex := by
  exact (c8_edit_in_abandon_restores c8WitnessIndex [0, 0, 0, 0, 0, 0, 0, 0]
    c8WitnessCallback ()
    (c8WitnessIndex.edit_in [0, 0, 0, 0, 0, 0, 0, 0] c8WitnessCallback).1 ()
    rfl (fun v => rfl) rfl rfl).1


namespace Index

variable {V : Type} {R : Type}

theorem add_mod_ne_self (n p m : Nat) (hp : p < n) (hm0 : 0 < m) (hmn : m < n) :
    (p + m) % n ≠ p := by
  intro h
  have hmod : (p + m) % n = p % n := by rw [h, Nat.mod_eq_of_lt hp]
  have hme : p + m ≡ p + 0 [MOD n] := by
    unfold Nat.ModEq
    rw [Nat.add_zero]
    exact hmod
  have hm : m ≡ 0 [MOD n] := Nat.ModEq.add_left_cancel' p hme
  have : m % n = 0 := by
    have := hm
    unfold Nat.ModEq at this
    simpa using this
  rw [Nat.mod_eq_of_lt hmn] at this
  omega

theorem pathCount_end_zero (n : Nat) :
    ∀ (k p : Nat), p < n → k < n → pathCount n p k ((p + k) % n) = 0 := by
  intro k
  induction k with
  | zero => intro p _ _; rfl
  | succ k ih =>
    intro p hp hkn
    have hn : 0 < n := lt_of_le_of_lt (Nat.zero_le p) hp
    rw [pathCount]
    have hne : ¬ p = (p + (k + 1)) % n := by
      intro h
      exact add_mod_ne_self n p (k + 1) hp (Nat.succ_pos k) hkn h.symm
    rw [if_neg hne, Nat.zero_add]
    have hmod : (p + (k + 1)) % n = ((p + 1) % n + k) % n := by
      rw [Nat.mod_add_mod]
      congr 1
      omega
    rw [hmod]
    exact ih ((p + 1) % n) (Nat.mod_lt _ hn) (by omega)

theorem prefSlot_end (n p k : Nat) (hp : p < n) (hk : k ≤ n) :
    prefSlot n ((p + k) % n) k = p := by
  unfold prefSlot
  rcases Nat.lt_or_ge (p + k) n with h | h
  · rw [Nat.mod_eq_of_lt h]
    have he : p + k + n - k = p + n := by omega
    rw [he, Nat.add_mod_right, Nat.mod_eq_of_lt hp]
  · have h2 : (p + k) % n = p + k - n := by
      have hlt : p + k - n < n := by omega
      rw [Nat.mod_eq_sub_mod h, Nat.mod_eq_of_lt hlt]
    rw [h2]
    have he : p + k - n + n - k = p := by omega
    rw [he, Nat.mod_eq_of_lt hp]

theorem sum_map_range_shift (g g' : Nat → Nat) (s0 : Nat)
    (hg : ∀ s, s ≠ s0 → g s = g' s) :
    ∀ n, s0 < n →
      ((List.range n).map g).sum + g' s0 = ((List.range n).map g').sum + g s0 := by
  intro n
  induction n with
  | zero => intro h; exact absurd h (Nat.not_lt_zero s0)
  | succ m ih =>
    intro h
    rw [List.range_succ, List.map_append, List.map_append,
      List.sum_append, List.sum_append]
    simp only [List.map_cons, List.map_nil, List.sum_cons, List.sum_nil]
    by_cases hs : s0 = m
    · subst hs
      have hmap : (List.range s0).map g = (List.range s0).map g' := by
        apply List.map_congr_left
        intro a ha
        exact hg a (Nat.ne_of_lt (List.mem_range.mp ha))
      rw [hmap]
      omega
    · have hlt : s0 < m := by omega
      have hih := ih hlt
      have hgm : g m = g' m := hg m (fun hh => hs hh.symm)
      omega

theorem read_item_openFresh (kb bits t : Nat) :
    (openFresh V kb bits).read_item t = emptyItem V := by
  rw [openFresh, read_item]
  by_cases ht : t < 2 ^ bits
  · rw [List.getD_eq_getElem _ _ (by simpa using ht)]
    simp
  · rw [List.getD_eq_default]
    simpa using Nat.le_of_not_lt ht

theorem openFresh_wf (kb bits : Nat) : IndexWF (openFresh V kb bits) := by
  simp [IndexWF, openFresh]

theorem openFresh_inv (kb bits : Nat) : AmendedIndexInv (openFresh V kb bits) := by
  constructor
  · intro s e hse
    rw [read_item_openFresh] at hse
    cases hse
  · intro t _
    rw [read_item_openFresh]
    rw [show (emptyItem V).skipped_count = 0 from rfl]
    unfold passTotal
    symm
    apply List.sum_eq_zero
    intro z hz
    obtain ⟨s, -, hs⟩ := List.mem_map.mp hz
    rw [← hs]
    simp [passSummand, read_item_openFresh, emptyItem]

/-- What a successful `edit_out` walk does: it finds, at some walk offset `k`,
an occupied slot whose stored correction is exactly `corr + k` and whose
suffix matches, and then either leaves the index alone, rewrites that slot's
address in place, or erases the entry (keeping the slot's skipped count) and
decrements the skip counts along the walk back to the preferred slot. -/
theorem editOutGo_ok_shape (f : V → Option (Option (Option V) × R)) (suffix : List Nat)
    (primary : Nat) :
    ∀ (fuel : Nat) (x : Index V) (tryIndex corr : Nat) (x' : Index V) (r : R),
      editOutGo f suffix primary fuel x tryIndex corr = (x', some (.ok r)) →
      ∃ k e, k < fuel ∧
        (x.read_item (stepSlot x.item_count tryIndex k)).maybe_entry = some e ∧
        e.key_correction = corr + k ∧ e.key_suffix = suffix ∧
        ((f e.address = some (none, r) ∧ x' = x) ∨
         (∃ a, f e.address = some (some (some a), r) ∧
            x' = x.write_item (stepSlot x.item_count tryIndex k)
              ⟨(x.read_item (stepSlot x.item_count tryIndex k)).skipped_count,
                some ⟨e.key_correction, e.key_suffix, a⟩⟩) ∨
         (f e.address = some (some none, r) ∧
            x' = (x.write_item (stepSlot x.item_count tryIndex k)
                ⟨(x.read_item (stepSlot x.item_count tryIndex k)).skipped_count,
                  none⟩).decrement_skip_counts primary (corr + k))) := by
  intro fuel
  induction fuel with
  | zero =>
    intro x tryIndex corr x' r h
    rw [editOutGo] at h
    cases h
  | succ fuel ih =>
    intro x tryIndex corr x' r h
    rw [editOutGo] at h
    have harith : corr + 1 + fuel = corr + (fuel + 1) := by omega
    split at h
    · next entry heq1 =>
      split at h
      · next hcond =>
        split at h
        · next heqf =>
          split at h
          · cases h
          · obtain ⟨k, e, hk, hfound, hcorr, hsuf, hbr⟩ :=
              ih x ((tryIndex + 1) % x.item_count) (corr + 1) x' r h
            have ha : corr + 1 + k = corr + (k + 1) := by omega
            rw [ha] at hcorr hbr
            exact ⟨k + 1, e, by omega, hfound, hcorr, hsuf, hbr⟩
        · next r0 heqf =>
          injection h with h1 h2
          injection h2 with h3
          injection h3 with h4
          subst h4
          subst h1
          exact ⟨0, entry, by omega, heq1, by rw [Nat.add_zero]; exact hcond.1,
            hcond.2, Or.inl ⟨heqf, rfl⟩⟩
        · next a r0 heqf =>
          injection h with h1 h2
          injection h2 with h3
          injection h3 with h4
          subst h4
          subst h1
          exact ⟨0, entry, by omega, heq1, by rw [Nat.add_zero]; exact hcond.1,
            hcond.2, Or.inr (Or.inl ⟨a, heqf, rfl⟩)⟩
        · next r0 heqf =>
          injection h with h1 h2
          injection h2 with h3
          injection h3 with h4
          subst h4
          subst h1
          refine ⟨0, entry, by omega, heq1, by rw [Nat.add_zero]; exact hcond.1,
            hcond.2, Or.inr (Or.inr ⟨heqf, ?_⟩)⟩
          rw [Nat.add_zero]
          rfl
      · next hcond =>
        split at h
        · cases h
        · obtain ⟨k, e, hk, hfound, hcorr, hsuf, hbr⟩ :=
            ih x ((tryIndex + 1) % x.item_count) (corr + 1) x' r h
          have ha : corr + 1 + k = corr + (k + 1) := by omega
          rw [ha] at hcorr hbr
          exact ⟨k + 1, e, by omega, hfound, hcorr, hsuf, hbr⟩
    · next heq1 =>
      split at h
      · cases h
      · obtain ⟨k, e, hk, hfound, hcorr, hsuf, hbr⟩ :=
          ih x ((tryIndex + 1) % x.item_count) (corr + 1) x' r h
        have ha : corr + 1 + k = corr + (k + 1) := by omega
        rw [ha] at hcorr hbr
        exact ⟨k + 1, e, by omega, hfound, hcorr, hsuf, hbr⟩

/-- Computing `passTotal` through a known `item_count`. -/
theorem passTotal_congr (x : Index V) (n t : Nat) (hn : x.item_count = n) :
    passTotal x t = ((List.range n).map (passSummand x t)).sum := by
  unfold passTotal
  rw [hn]

/-- The summand is invariant under changes that keep the slot's entry and the
slot count. -/
theorem passSummand_congr (x x' : Index V) (t s : Nat)
    (hn : x'.item_count = x.item_count)
    (he : (x'.read_item s).maybe_entry = (x.read_item s).maybe_entry) :
    passSummand x' t s = passSummand x t s := by
  unfold passSummand
  rw [hn, he]

/-- An empty slot contributes nothing to any walk-trail count. -/
theorem passSummand_none (x : Index V) (t s : Nat)
    (he : (x.read_item s).maybe_entry = none) : passSummand x t s = 0 := by
  unfold passSummand
  rw [he]

/-- The contribution of an occupied slot, written out. -/
theorem passSummand_some (x : Index V) (t s : Nat) (e : IndexEntry V)
    (he : (x.read_item s).maybe_entry = some e) :
    passSummand x t s
      = pathCount x.item_count (prefSlot x.item_count s e.key_correction)
          e.key_correction t := by
  unfold passSummand
  rw [he]

/-- Slot-wise reads after erasing slot `s` and walking the skip trail back
from `p`: skip counts drop by the trail's path count and only slot `s` loses
its entry. -/
theorem read_item_eraseDecrement (x : Index V) (s p k : Nat)
    (hp : p < x.item_count) (t : Nat) :
    (((x.write_item s ⟨(x.read_item s).skipped_count, none⟩).decrement_skip_counts
          p k).read_item t).skipped_count
        = (x.read_item t).skipped_count - pathCount x.item_count p k t ∧
      (((x.write_item s ⟨(x.read_item s).skipped_count, none⟩).decrement_skip_counts
          p k).read_item t).maybe_entry
        = if s = t ∧ t < x.items.length then none
          else (x.read_item t).maybe_entry := by
  have hn0 : 0 < x.item_count := lt_of_le_of_lt (Nat.zero_le p) hp
  have hd := read_item_decrement k
    (x.write_item s ⟨(x.read_item s).skipped_count, none⟩) p (by simpa using hn0) t
  simp only [item_count_write_item] at hd
  rw [Nat.mod_eq_of_lt hp] at hd
  refine ⟨?_, ?_⟩
  · rw [hd.1, read_item_write_item]
    by_cases hc : s = t ∧ t < x.items.length
    · rw [if_pos hc, hc.1]
    · rw [if_neg hc]
  · rw [hd.2, read_item_write_item]
    by_cases hc : s = t ∧ t < x.items.length
    · rw [if_pos hc, if_pos hc]
    · rw [if_neg hc, if_neg hc]

/-- A successful `edit_in` whose callback declines every existing entry
preserves geometry well-formedness and the amended invariant. -/
theorem editIn_ok_preserves (x : Index V) (hash : List Nat)
    (f : Option V → Option (Option V × R)) (r : R) (x' : Index V)
    (hf : ∀ v, f (some v) = none)
    (h : x.edit_in hash f = (x', .ok r))
    (hwf : IndexWF x) (hinv : AmendedIndexInv x) :
    IndexWF x' ∧ AmendedIndexInv x' := by
  have hwfe : x.items.length = 2 ^ x.index_bits := hwf
  have hn0 : 0 < x.item_count := by
    show 0 < x.items.length
    rw [hwfe]
    exact pow_pos (by omega) _
  have hp : (x.index_suffix_of hash).1 < x.item_count := by
    show _ < x.items.length
    rw [hwfe]
    exact index_suffix_of_fst_lt x hash
  rw [edit_in, edit_in_position] at h
  obtain ⟨k, hk, hempty, hbr⟩ :=
    editInGo_ok_shape f (x.index_suffix_of hash).2 (x.index_suffix_of hash).1 hf
      (min 32768 x.item_count) x (x.index_suffix_of hash).1 0 x' r h
  have hkn : k < x.item_count := lt_of_lt_of_le hk (min_le_right _ _)
  rw [stepSlot_eq x.item_count k (x.index_suffix_of hash).1 hp] at hempty hbr
  have hsn : ((x.index_suffix_of hash).1 + k) % x.item_count < x.item_count :=
    Nat.mod_lt _ hn0
  rcases hbr with ⟨a, hfa, hx'⟩ | ⟨hfa, hx'⟩
  · -- an insertion at the first empty walk slot
    rw [Nat.zero_add] at hx'
    have hbump := read_item_bumpSkips k x (x.index_suffix_of hash).1 hp
    have hlen : x'.item_count = x.item_count := by rw [hx']; simp
    have hwf' : IndexWF x' := by
      show x'.items.length = 2 ^ x'.index_bits
      have hib : x'.index_bits = x.index_bits := by rw [hx']; simp
      have hle : x'.items.length = x.items.length := by rw [hx']; simp
      rw [hib, hle, hwfe]
    have hskip : ∀ t, t ≠ ((x.index_suffix_of hash).1 + k) % x.item_count →
        (x'.read_item t).skipped_count
          = (x.read_item t).skipped_count
            + pathCount x.item_count (x.index_suffix_of hash).1 k t := by
      intro t ht
      rw [hx', read_item_write_item, if_neg (fun hc => ht hc.1.symm)]
      exact (hbump t).1
    have hskip_s :
        (x'.read_item (((x.index_suffix_of hash).1 + k) % x.item_count)).skipped_count
          = (x.read_item (((x.index_suffix_of hash).1 + k)
              % x.item_count)).skipped_count := by
      rw [hx', read_item_write_item,
        if_pos ⟨rfl, by simp only [items_length_bumpSkips]; exact hsn⟩]
    have hent : ∀ t, t ≠ ((x.index_suffix_of hash).1 + k) % x.item_count →
        (x'.read_item t).maybe_entry = (x.read_item t).maybe_entry := by
      intro t ht
      rw [hx', read_item_write_item, if_neg (fun hc => ht hc.1.symm)]
      exact (hbump t).2
    have hent_s :
        (x'.read_item (((x.index_suffix_of hash).1 + k) % x.item_count)).maybe_entry
          = some ⟨k, (x.index_suffix_of hash).2, a⟩ := by
      rw [hx', read_item_write_item,
        if_pos ⟨rfl, by simp only [items_length_bumpSkips]; exact hsn⟩]
    have hpass : ∀ t, passTotal x t
        + pathCount x.item_count (x.index_suffix_of hash).1 k t = passTotal x' t := by
      intro t
      have hshift := sum_map_range_shift (passSummand x t) (passSummand x' t)
        (((x.index_suffix_of hash).1 + k) % x.item_count)
        (fun s hsne => (passSummand_congr x x' t s hlen (hent s hsne)).symm)
        x.item_count hsn
      have hg0 := passSummand_none x t _ hempty
      have hgs : passSummand x' t (((x.index_suffix_of hash).1 + k) % x.item_count)
          = pathCount x.item_count (x.index_suffix_of hash).1 k t := by
        rw [passSummand_some x' t _ ⟨k, (x.index_suffix_of hash).2, a⟩ hent_s, hlen]
        show pathCount x.item_count
          (prefSlot x.item_count (((x.index_suffix_of hash).1 + k) % x.item_count) k)
          k t = _
        rw [prefSlot_end x.item_count (x.index_suffix_of hash).1 k hp
          (Nat.le_of_lt hkn)]
      rw [passTotal_congr x x.item_count t rfl, passTotal_congr x' x.item_count t hlen]
      omega
    refine ⟨hwf', ?_, ?_⟩
    · intro s e hse
      rw [hlen]
      by_cases hss : s = ((x.index_suffix_of hash).1 + k) % x.item_count
      · subst hss
        rw [hent_s] at hse
        injection hse with hse'
        subst hse'
        exact hkn
      · rw [hent s hss] at hse
        exact hinv.1 s e hse
    · intro t ht
      rw [hlen] at ht
      by_cases hts : t = ((x.index_suffix_of hash).1 + k) % x.item_count
      · subst hts
        rw [hskip_s, ← hpass _,
          pathCount_end_zero x.item_count k (x.index_suffix_of hash).1 hp hkn,
          Nat.add_zero]
        exact hinv.2 _ hsn
      · rw [hskip t hts, ← hpass t, hinv.2 t ht]
  · -- an abandoned walk: the trail is undone exactly
    rw [Nat.zero_add] at hx'
    rw [hx', decrement_bumpSkips_cancel x (x.index_suffix_of hash).1 k hp]
    exact ⟨hwf, hinv⟩

/-- A successful `edit_out` preserves geometry well-formedness and the
amended invariant. -/
theorem editOut_ok_preserves (x : Index V) (hash : List Nat)
    (f : V → Option (Option (Option V) × R)) (r : R) (fuel : Nat) (x' : Index V)
    (h : x.edit_out hash f fuel = (x', some (.ok r)))
    (hwf : IndexWF x) (hinv : AmendedIndexInv x) :
    IndexWF x' ∧ AmendedIndexInv x' := by
  have hwfe : x.items.length = 2 ^ x.index_bits := hwf
  have hn0 : 0 < x.item_count := by
    show 0 < x.items.length
    rw [hwfe]
    exact pow_pos (by omega) _
  have hp : (x.index_suffix_of hash).1 < x.item_count := by
    show _ < x.items.length
    rw [hwfe]
    exact index_suffix_of_fst_lt x hash
  rw [edit_out] at h
  obtain ⟨k, e, hk, hfound, hcorr, hsuf, hbr⟩ :=
    editOutGo_ok_shape f (x.index_suffix_of hash).2 (x.index_suffix_of hash).1
      fuel x (x.index_suffix_of hash).1 0 x' r h
  rw [stepSlot_eq x.item_count k (x.index_suffix_of hash).1 hp] at hfound hbr
  rw [Nat.zero_add] at hcorr
  have hkc := hinv.1 _ e hfound
  have hkn : k < x.item_count := by omega
  have hsn : ((x.index_suffix_of hash).1 + k) % x.item_count < x.item_count :=
    Nat.mod_lt _ hn0
  rcases hbr with ⟨hfa, hx'⟩ | ⟨a, hfa, hx'⟩ | ⟨hfa, hx'⟩
  · -- the entry is left alone
    rw [hx']
    exact ⟨hwf, hinv⟩
  · -- the address is rewritten in place
    have hlen : x'.item_count = x.item_count := by rw [hx']; simp
    have hwf' : IndexWF x' := by
      show x'.items.length = 2 ^ x'.index_bits
      have hib : x'.index_bits = x.index_bits := by rw [hx']; simp
      have hle : x'.items.length = x.items.length := by rw [hx']; simp
      rw [hib, hle, hwfe]
    have hskip : ∀ t, (x'.read_item t).skipped_count
        = (x.read_item t).skipped_count := by
      intro t
      rw [hx', read_item_write_item]
      by_cases hc : ((x.index_suffix_of hash).1 + k) % x.item_count = t
          ∧ t < x.items.length
      · rw [if_pos hc, hc.1]
      · rw [if_neg hc]
    have hent : ∀ t, t ≠ ((x.index_suffix_of hash).1 + k) % x.item_count →
        (x'.read_item t).maybe_entry = (x.read_item t).maybe_entry := by
      intro t ht
      rw [hx', read_item_write_item, if_neg (fun hc => ht hc.1.symm)]
    have hent_s :
        (x'.read_item (((x.index_suffix_of hash).1 + k) % x.item_count)).maybe_entry
          = some ⟨e.key_correction, e.key_suffix, a⟩ := by
      rw [hx', read_item_write_item, if_pos ⟨rfl, hsn⟩]
    have hpass : ∀ t, passTotal x t = passTotal x' t := by
      intro t
      have hshift := sum_map_range_shift (passSummand x t) (passSummand x' t)
        (((x.index_suffix_of hash).1 + k) % x.item_count)
        (fun s hsne => (passSummand_congr x x' t s hlen (hent s hsne)).symm)
        x.item_count hsn
      have hg0 := passSummand_some x t _ e hfound
      have hgs : passSummand x' t (((x.index_suffix_of hash).1 + k) % x.item_count)
          = pathCount x.item_count
              (prefSlot x.item_count (((x.index_suffix_of hash).1 + k) % x.item_count)
                e.key_correction) e.key_correction t := by
        rw [passSummand_some x' t _ ⟨e.key_correction, e.key_suffix, a⟩ hent_s, hlen]
      rw [passTotal_congr x x.item_count t rfl, passTotal_congr x' x.item_count t hlen]
      omega
    refine ⟨hwf', ?_, ?_⟩
    · intro s' e' he'
      rw [hlen]
      by_cases hss : s' = ((x.index_suffix_of hash).1 + k) % x.item_count
      · subst hss
        rw [hent_s] at he'
        injection he' with he''
        subst he''
        exact hinv.1 _ e hfound
      · rw [hent s' hss] at he'
        exact hinv.1 s' e' he'
    · intro t ht
      rw [hlen] at ht
      rw [hskip t, ← hpass t]
      exact hinv.2 t ht
  · -- the entry is erased and the trail walked back
    rw [Nat.zero_add] at hx'
    have hdec := read_item_eraseDecrement x
      (((x.index_suffix_of hash).1 + k) % x.item_count) (x.index_suffix_of hash).1 k hp
    have hlen : x'.item_count = x.item_count := by rw [hx']; simp
    have hwf' : IndexWF x' := by
      show x'.items.length = 2 ^ x'.index_bits
      have hib : x'.index_bits = x.index_bits := by rw [hx']; simp
      have hle : x'.items.length = x.items.length := by rw [hx']; simp
      rw [hib, hle, hwfe]
    have hskip : ∀ t, (x'.read_item t).skipped_count
        = (x.read_item t).skipped_count
          - pathCount x.item_count (x.index_suffix_of hash).1 k t := by
      intro t
      rw [hx']
      exact (hdec t).1
    have hent : ∀ t, t ≠ ((x.index_suffix_of hash).1 + k) % x.item_count →
        (x'.read_item t).maybe_entry = (x.read_item t).maybe_entry := by
      intro t ht
      rw [hx', (hdec t).2, if_neg (fun hc => ht hc.1.symm)]
    have hent_s :
        (x'.read_item (((x.index_suffix_of hash).1 + k) % x.item_count)).maybe_entry
          = none := by
      rw [hx', (hdec _).2, if_pos ⟨rfl, hsn⟩]
    have hpass : ∀ t, passTotal x t
        = passTotal x' t + pathCount x.item_count (x.index_suffix_of hash).1 k t := by
      intro t
      have hshift := sum_map_range_shift (passSummand x t) (passSummand x' t)
        (((x.index_suffix_of hash).1 + k) % x.item_count)
        (fun s hsne => (passSummand_congr x x' t s hlen (hent s hsne)).symm)
        x.item_count hsn
      have hg0 : passSummand x t (((x.index_suffix_of hash).1 + k) % x.item_count)
          = pathCount x.item_count (x.index_suffix_of hash).1 k t := by
        rw [passSummand_some x t _ e hfound, hcorr,
          prefSlot_end x.item_count (x.index_suffix_of hash).1 k hp
            (Nat.le_of_lt hkn)]
      have hgs := passSummand_none x' t _ hent_s
      rw [passTotal_congr x x.item_count t rfl, passTotal_congr x' x.item_count t hlen]
      omega
    refine ⟨hwf', ?_, ?_⟩
    · intro s' e' he'
      rw [hlen]
      by_cases hss : s' = ((x.index_suffix_of hash).1 + k) % x.item_count
      · subst hss
        rw [hent_s] at he'
        cases he'
      · rw [hent s' hss] at he'
        exact hinv.1 s' e' he'
    · intro t ht
      rw [hlen] at ht
      have h1 := hskip t
      have h2 := hinv.2 t ht
      have h3 := hpass t
      omega

/-- Any single successful operation of the constrained kind preserves
well-formedness and the amended invariant. -/
theorem indexStep_preserves {x x' : Index V} (hstep : IndexStep x x')
    (hwf : IndexWF x) (hinv : AmendedIndexInv x) :
    IndexWF x' ∧ AmendedIndexInv x' := by
  cases hstep with
  | editIn hash f r xa xb hf h =>
    exact editIn_ok_preserves x hash f r x' hf h hwf hinv
  | editOut hash f r fuel xa xb h =>
    exact editOut_ok_preserves x hash f r fuel x' h hwf hinv

/-- Claim C5 (amended): starting from a fresh all-empty index, after any
sequence of successful `edit_in` operations whose callbacks decline existing
entries and successful `edit_out` operations, every stored key correction is
below `item_count`, and every slot's `skipped_count` equals the number of
occupied entries whose insertion walk passed over that slot.  (The original
wording's clauses — intermediate slots occupied and `skipped_count` counting
entries by preferred slot — fail after erasures; see the counterexample.) -/
theorem c5_index_invariant_amended (kb bits : Nat) (x : Index V)
    (h : Relation.ReflTransGen IndexStep (openFresh V kb bits) x) :
    AmendedIndexInv x := by
  have hall : IndexWF x ∧ AmendedIndexInv x := by
    induction h with
    | refl => exact ⟨openFresh_wf kb bits, openFresh_inv kb bits⟩
    | tail _ hstep ih => exact indexStep_preserves hstep ih.1 ih.2
  exact hall.2

end Index

/-- Claim C5 (counterexample to the original wording): three successful
insertions that all prefer slot 0, followed by a successful erasure of the
middle one, leave slot 1 empty yet with a positive skipped count and slot 2
occupied with correction 2 over an unoccupied intermediate slot — both
clauses of the stated invariant fail on a state reached by successful
operations alone. -/
theorem c5_index_invariant_cex :
    c5CexStep1.2 = .ok () ∧ c5CexStep2.2 = .ok () ∧ c5CexStep3.2 = .ok () ∧
    c5CexStep4.2 = some (.ok 0) ∧
    Index.C5OriginalHolds c5CexStep4.1 = false :=
  ⟨rfl, rfl, rfl, rfl, by decide⟩

/-- Witness for C5 (amended) at a concrete input: one successful insertion
into a fresh four-slot index reaches a state satisfying the amended
invariant. -/
theorem c5_index_invariant_amended_witness :
    Index.AmendedIndexInv c5CexStep1.1 :=
  Index.c5_index_invariant_amended 1 2 c5CexStep1.1
    (Relation.ReflTransGen.single
      (Index.IndexStep.editIn [0, 0, 0, 0, 0, 0, 0, 0] (c5CexCallback 1) ()
        (Index.openFresh Nat 1 2) c5CexStep1.1 (fun _ => rfl) rfl))

namespace Index

variable {V : Type} {R : Type}

/-- Removing values by a pointwise-`none` function empties a `filterMap`. -/
theorem filterMap_none_eq_zero {α β : Type} (g : α → Option β) (m : Multiset α)
    (hg : ∀ s, g s = none) : Multiset.filterMap g m = 0 := by
  induction m using Multiset.induction_on with
  | empty => rfl
  | cons a s ih => rw [Multiset.filterMap_cons_none a s (hg a), ih]

/-- Congruence of `filterMap` for functions agreeing on the members. -/
theorem filterMap_congr_mem {α β : Type} (m : Multiset α) (g g' : α → Option β)
    (h : ∀ x ∈ m, g x = g' x) :
    Multiset.filterMap g m = Multiset.filterMap g' m := by
  induction m using Multiset.induction_on with
  | empty => rfl
  | cons a s ih =>
    have ha := h a (Multiset.mem_cons_self a s)
    have hs : ∀ x ∈ s, g x = g' x := fun x hx => h x (Multiset.mem_cons_of_mem hx)
    cases hcase : g' a with
    | none =>
      rw [Multiset.filterMap_cons_none a s (ha.trans hcase),
        Multiset.filterMap_cons_none a s hcase]
      exact ih hs
    | some b =>
      rw [Multiset.filterMap_cons_some g a s (ha.trans hcase),
        Multiset.filterMap_cons_some g' a s hcase, ih hs]

/-- Changing `range n`'s image at one point from `none` to `some a` adds
exactly `a` to the `filterMap`. -/
theorem filterMap_range_update {α : Type} (g g' : Nat → Option α) (s0 n : Nat)
    (a : α) (hs0 : s0 < n) (hg : ∀ s, s ≠ s0 → g s = g' s)
    (h0 : g s0 = none) (h0' : g' s0 = some a) :
    Multiset.filterMap g' (Multiset.range n)
      = a ::ₘ Multiset.filterMap g (Multiset.range n) := by
  have hmem : s0 ∈ Multiset.range n := Multiset.mem_range.mpr hs0
  have hsplit := Multiset.cons_erase hmem
  rw [← hsplit, Multiset.filterMap_cons_some g' s0 _ h0',
    Multiset.filterMap_cons_none s0 _ h0]
  congr 1
  exact filterMap_congr_mem _ g' g (fun t htmem =>
    (hg t ((Multiset.Nodup.mem_erase_iff (Multiset.nodup_range n)).mp htmem).1).symm)

/-- A successful `edit_in_position` whose callback declines existing entries
and installs `a` on the first empty walk slot keeps the geometry and adds
exactly `a` to the stored address multiset. -/
theorem editInPos_insert_addresses (x : Index V) (primary : Nat)
    (suffix : List Nat) (f : Option V → Option (Option V × R)) (a : V)
    (r r' : R) (x' : Index V)
    (hf : ∀ v, f (some v) = none)
    (hfn : f none = some (some a, r))
    (hp : primary < x.item_count)
    (h : x.edit_in_position primary suffix f = (x', .ok r')) :
    x'.items.length = x.items.length ∧ x'.index_bits = x.index_bits ∧
      addressesM x' = a ::ₘ addressesM x := by
  rw [edit_in_position] at h
  obtain ⟨k, hk, hempty, hbr⟩ :=
    editInGo_ok_shape f suffix primary hf (min 32768 x.item_count) x primary 0 x' r' h
  have hn0 : 0 < x.item_count := lt_of_le_of_lt (Nat.zero_le _) hp
  have hkn : k < x.item_count := lt_of_lt_of_le hk (min_le_right _ _)
  rw [stepSlot_eq x.item_count k primary hp] at hempty hbr
  have hsn : (primary + k) % x.item_count < x.item_count := Nat.mod_lt _ hn0
  rcases hbr with ⟨a2, hfa, hx'⟩ | ⟨hfa, hx'⟩
  · rw [hfn] at hfa
    injection hfa with hfa1
    injection hfa1 with hfa2 hfa3
    injection hfa2 with hfa4
    subst hfa4
    rw [Nat.zero_add] at hx'
    have hbump := read_item_bumpSkips k x primary hp
    have hlen : x'.item_count = x.item_count := by rw [hx']; simp
    have hent : ∀ t, t ≠ (primary + k) % x.item_count →
        (x'.read_item t).maybe_entry = (x.read_item t).maybe_entry := by
      intro t ht
      rw [hx', read_item_write_item, if_neg (fun hc => ht hc.1.symm)]
      exact (hbump t).2
    have hent_s : (x'.read_item ((primary + k) % x.item_count)).maybe_entry
        = some ⟨k, suffix, a⟩ := by
      rw [hx', read_item_write_item,
        if_pos ⟨rfl, by simp only [items_length_bumpSkips]; exact hsn⟩]
    refine ⟨by rw [hx']; simp, by rw [hx']; simp, ?_⟩
    unfold addressesM
    rw [hlen]
    exact filterMap_range_update
      (fun s => ((x.read_item s).maybe_entry).map IndexEntry.address)
      (fun s => ((x'.read_item s).maybe_entry).map IndexEntry.address)
      ((primary + k) % x.item_count) x.item_count a hsn
      (fun s hsne => by simp only [hent s hsne])
      (by simp [hempty]) (by simp [hent_s])
  · rw [hfn] at hfa
    injection hfa with hfa1
    injection hfa1 with hfa2 hfa3
    cases hfa2

/-- A `rebuildStep` that reports `Ok` preserves well-formedness and adds
exactly its carried address. -/
theorem rebuildStep_ok (result : Index V) (address : V) (partial_key : List Nat)
    (r0 : Unit) (hwf : result.items.length = 2 ^ result.index_bits)
    (h2 : (rebuildStep result address partial_key).2 = .ok r0) :
    (rebuildStep result address partial_key).1.items.length
        = 2 ^ (rebuildStep result address partial_key).1.index_bits ∧
      addressesM (rebuildStep result address partial_key).1
        = address ::ₘ addressesM result := by
  have hpair : rebuildStep result address partial_key
      = ((rebuildStep result address partial_key).1, .ok r0) := by
    rw [← h2]
  have hPlt : (result.index_suffix_of (resizeTo8 partial_key)).1 &&& result.index_mask
      < result.item_count := by
    show _ < result.items.length
    rw [hwf]
    have h1 : (result.index_suffix_of (resizeTo8 partial_key)).1 &&& result.index_mask
        ≤ result.index_mask := Nat.and_le_right
    have h3 : result.index_mask < 2 ^ result.index_bits := by
      unfold index_mask
      exact Nat.sub_lt (pow_pos (by omega) _) (by omega)
    omega
  have hmain := editInPos_insert_addresses result
    ((result.index_suffix_of (resizeTo8 partial_key)).1 &&& result.index_mask)
    (result.index_suffix_of (resizeTo8 partial_key)).2
    (fun maybe_same =>
      match maybe_same with
      | some _ => none
      | none => some (some address, ()))
    address () r0 (rebuildStep result address partial_key).1
    (fun v => rfl) rfl hPlt hpair
  refine ⟨?_, hmain.2.2⟩
  rw [hmain.1, hmain.2.1]
  exact hwf

/-- The rebuild loop of `from_existing` accumulates exactly the addresses of
the source slots it walks over. -/
theorem fromExistingGo_addresses (source : Index V) :
    ∀ (rest : List Nat) (result final : Index V),
      result.items.length = 2 ^ result.index_bits →
      fromExistingGo source rest result = some (.ok final) →
      final.items.length = 2 ^ final.index_bits ∧
        addressesM final = addressesM result
          + Multiset.filterMap
              (fun i => ((source.read_item i).maybe_entry).map IndexEntry.address)
              (↑rest : Multiset Nat) := by
  intro rest
  induction rest with
  | nil =>
    intro result final hwf h
    rw [fromExistingGo] at h
    injection h with h1
    injection h1 with h2
    subst h2
    refine ⟨hwf, ?_⟩
    rw [Multiset.coe_nil, Multiset.filterMap_zero, add_zero]
  | cons i rest ih =>
    intro result final hwf h
    rw [fromExistingGo] at h
    split at h
    · next heq =>
      obtain ⟨hwf2, hadd⟩ := ih result final hwf h
      refine ⟨hwf2, ?_⟩
      rw [← Multiset.cons_coe, Multiset.filterMap_cons_none i _ (by simp [heq]), hadd]
    · next entry heq =>
      split at h
      · split at h
        · next r0 heq2 =>
          obtain ⟨hwfQ, haddQ⟩ := rebuildStep_ok _ _ _ r0 hwf heq2
          obtain ⟨hwfF, haddF⟩ := ih _ final hwfQ h
          refine ⟨hwfF, ?_⟩
          have hsome : (fun j => Option.map IndexEntry.address
              (source.read_item j).maybe_entry) i = some entry.address := by
            simp [heq]
          rw [haddF, haddQ, ← Multiset.cons_coe,
            Multiset.filterMap_cons_some _ i _ hsome,
            Multiset.cons_add, Multiset.add_cons]
        · next heq2 =>
          cases h
        · next heq2 =>
          cases h
      · cases h

/-- An empty index stores no addresses. -/
theorem addressesM_openFresh (kb bits : Nat) :
    addressesM (openFresh V kb bits) = 0 :=
  filterMap_none_eq_zero _ _ (fun s => by simp [read_item_openFresh, emptyItem])

/-- Claim C4 (amended, and direction reversed to match the code): for the
supported direction `key_bytes ≤ source.key_bytes`, a `from_existing` that
completes with `Ok` builds an index holding exactly the source's addresses
(as a multiset): every stored mapping survives the rebuild with its address
unchanged.  (The claim's widening direction hits `unimplemented!()`; see the
counterexample.) -/
theorem c4_from_existing_preserves_addresses (source : Index V) (kb bits : Nat)
    (final : Index V)
    (h : from_existing source kb bits = some (.ok final)) :
    addressesM final = addressesM source := by
  rw [from_existing] at h
  split at h
  · obtain ⟨-, hadd⟩ := fromExistingGo_addresses source (List.range source.item_count)
      (openFresh V kb bits) final (by simp [openFresh]) h
    rw [hadd, addressesM_openFresh, zero_add]
    rfl
  · cases h

end Index

/-- Claim C4 (counterexample): the widening direction the claim requires is
the unimplemented one.  Even for a trivially well-formed (empty) source with
key_bytes 1 and index_bits 4, rebuilding at key_bytes 2 and index_bits 5 hits
the `unimplemented!()` branch (modelled as `none`): the code only supports
`key_bytes ≤ source.key_bytes`, with the claim's two directions swapped. -/
theorem c4_from_existing_widening_cex :
    Index.from_existing (Index.openFresh Nat 1 4) 2 5 = none := rfl

/-- Witness for C4 (amended) at a concrete input: rebuilding a two-slot
source with one entry at equal geometry succeeds and keeps exactly the
stored address. -/
theorem c4_from_existing_preserves_addresses_witness :
    Index.addressesM c4WitnessResult = Index.addressesM c4WitnessSource :=
  Index.c4_from_existing_preserves_addresses c4WitnessSource 1 1 c4WitnessResult rfl

namespace Table

/-- Zero-filled header bytes decode as `Free(0)`. -/
theorem decode_replicate_zero (cf : CorrectionFactor) (ks n : Nat) (hn : 3 ≤ n) :
    ItemHeader.decode cf ks (List.replicate n 0) = some (.Free 0) := by
  obtain ⟨m, rfl⟩ : ∃ m, n = m + 3 := ⟨n - 3, by omega⟩
  rw [show m + 3 = (m + 2) + 1 from rfl, List.replicate_succ,
    show m + 2 = (m + 1) + 1 from rfl, List.replicate_succ, List.replicate_succ]
  rfl

/-- The fresh-allocation record always encodes: its `ref_count` is 1, far
below the `assert!`ed 32768 bound. -/
theorem encode_new_item (cf : CorrectionFactor) (sc : Nat) (key : List Nat) :
    ∃ bs, (ItemHeader.Allocated 1 sc key).encode_to cf = some bs := by
  show ∃ bs, (if 1 < 32768 then some _ else none) = some bs
  rw [if_pos (by omega)]
  exact ⟨_, rfl⟩

/-- What `ensure_referencable` does on an in-range index: it succeeds, the
(possibly clobbered) `item_count` still exceeds the index, and the index's
slot either keeps its bytes (already backed) or reads as fresh zeros. -/
theorem ensure_referencable_spec (t : Table) (index : Nat)
    (hlt : index < t.item_count) :
    ∃ t0, t.ensure_referencable index = some t0 ∧ index < t0.item_count ∧
      ((t.slots.length ≤ index ∧
          t0.readSlot index = List.replicate t.item_header_size 0) ∨
        (index < t.slots.length ∧ t0.readSlot index = t.readSlot index)) := by
  rw [ensure_referencable, if_neg (not_le.mpr hlt)]
  by_cases hb : t.slots.length ≤ index
  · rw [if_pos hb]
    refine ⟨_, rfl, ?_, Or.inl ⟨hb, ?_⟩⟩
    · show index < max (min (t.slots.length * 2) t.item_count) (index + 1)
      omega
    · show ((t.slots.take (max (min (t.slots.length * 2) t.item_count) (index + 1))
          ++ List.replicate (max (min (t.slots.length * 2) t.item_count) (index + 1)
              - t.slots.length) (List.replicate t.item_header_size 0)).getD index [])
        = List.replicate t.item_header_size 0
      have hlen : (t.slots.take (max (min (t.slots.length * 2) t.item_count)
          (index + 1))).length = t.slots.length := by
        rw [List.length_take]
        omega
      rw [List.getD_append_right _ _ _ _ (by rw [hlen]; exact hb), hlen,
        List.getD_eq_getElem _ _ (by
          rw [List.length_replicate]
          omega)]
      simp
  · rw [if_neg hb]
    exact ⟨t, rfl, hlt, Or.inr ⟨by omega, rfl⟩⟩

/-- Claim C10: under the documented header and free-list invariants,
`Table::allocate` returns `None` exactly when the table is completely full
(`used == touched_count == item_count`), and a `None` return leaves the
table — header, free list, and every slot's bytes — exactly as it was. -/
theorem c10_allocate_none_iff_full (t : Table) (key : List Nat) (size : Nat)
    (hwf : t.TableWF) :
    (∀ t', t.allocate key size = some (none, t') →
      (t.header.used = t.header.touched_count ∧
        t.header.touched_count = t.item_count) ∧ t' = t) ∧
    ((t.header.used = t.header.touched_count ∧
        t.header.touched_count = t.item_count) →
      t.allocate key size = some (none, t)) := by
  obtain ⟨hut, htc, hic, hfree, hvirgin⟩ := hwf
  constructor
  · intro t' h
    rw [allocate] at h
    split at h
    · -- free-list branch: always yields `Some`
      next h1 =>
      exfalso
      obtain ⟨hnf, nf, hdec⟩ := hfree h1
      split at h
      · next hc2 => omega
      · next hc2 =>
        split at h
        · next heq =>
          rw [hdec] at heq
          cases heq
        · next a b c heq =>
          rw [hdec] at heq
          simp at heq
        · next nf2 heq =>
          obtain ⟨bs, hbs⟩ := encode_new_item t.correction_factor
            (if 0 < t.value_size then (t.value_size - size) % 2 ^ 32 else 0) key
          split at h
          · next heq2 =>
            rw [hbs] at heq2
            cases heq2
          · next bs2 heq2 =>
            simp at h
    · next h1 =>
      split at h
      · -- virgin-slot branch: always yields `Some`
        next h3 =>
        exfalso
        have hres : t.header.touched_count % 65536 = t.header.touched_count :=
          Nat.mod_eq_of_lt (by omega)
        rw [hres] at h
        obtain ⟨t0, hens, hlt0, hslot⟩ :=
          ensure_referencable_spec t t.header.touched_count h3
        have hdec0 : ∃ nf0, ItemHeader.decode t.correction_factor t.key_size
            (t0.readSlot t.header.touched_count) = some (.Free nf0) := by
          rcases hslot with ⟨hb, hz⟩ | ⟨hb, hsame⟩
          · rw [hz]
            exact ⟨0, decode_replicate_zero _ _ _ (le_max_right _ _)⟩
          · rw [hsame]
            exact hvirgin h3 hb
        obtain ⟨nf0, hdec0⟩ := hdec0
        split at h
        · next heq =>
          rw [hens] at heq
          cases heq
        · next t0b heq =>
          rw [hens] at heq
          injection heq with heqq
          subst heqq
          split at h
          · next hcond => omega
          · next hcond =>
            split at h
            · next heq2 =>
              rw [hdec0] at heq2
              cases heq2
            · next a b c heq2 =>
              rw [hdec0] at heq2
              simp at heq2
            · next nf2 heq2 =>
              obtain ⟨bs, hbs⟩ := encode_new_item t.correction_factor
                (if 0 < t.value_size then (t.value_size - size) % 2 ^ 32 else 0)
                key
              split at h
              · next heq3 =>
                rw [hbs] at heq3
                cases heq3
              · next bs2 heq3 =>
                simp at h
      · -- completely full: `None`, state untouched
        next h3 =>
        injection h with h4
        injection h4 with h5 h6
        exact ⟨⟨by omega, by omega⟩, h6.symm⟩
  · intro hfull
    obtain ⟨he1, he2⟩ := hfull
    rw [allocate, if_neg (by omega), if_neg (by omega)]

end Table

/-- Witness for C10 at a concrete input: a full one-slot table declines an
allocation and is left exactly as it was. -/
theorem c10_allocate_none_iff_full_witness :
    c10WitnessTable.allocate [9] 1 = some (none, c10WitnessTable) :=
  (Table.c10_allocate_none_iff_full c10WitnessTable [9] 1
    ⟨by decide, by decide, by decide,
      fun h => absurd h (by decide),
      fun h => absurd h (by decide)⟩).2 ⟨rfl, rfl⟩

/-- Claim C1 (code bug): the round-trip breaks as soon as a `remove` is meant
to clear the entry.  On a fresh database, `put_with_hash(h, [1])` makes
`get(h) = Some([1])` — but the stored refcount bytes decode as 32768 (the
`ItemHeader::decode` precedence slip), so the single matching `remove`
returns `Ok(32767)` instead of erasing, and the following
`put_with_hash(h, [2])` lands on the stale entry's bump path, leaving
`get(h) = Some([1])`, not the freshly put `Some([2])`. -/
theorem c1_roundtrip_broken :
    c12Db0.put_with_hash c12Hash [1] 16 = some c12Db1 ∧
    c12Db1.get c12Hash 16 = some (some [1]) ∧
    c12Db1.remove c12Hash 16 = some (.ok (32767, c12Db2)) ∧
    c12Db2.put_with_hash c12Hash [2] 16 = some c1Db3 ∧
    c1Db3.get c12Hash 16 = some (some [1]) ∧
    c1Db3.get c12Hash 16 ≠ some (some [2]) :=
  ⟨rfl, rfl, rfl, rfl, rfl, by decide⟩

/-- Claim C2 (code bug): with N = 1 and M = 0, `get_ref_count` reports 32768
instead of 1 (the freshly encoded refcount 1 decodes through the broken
shift); and a `remove` performed at true refcount 1 returns `Ok(32767)`
rather than 0, so the entry is not erased — the key is still reported
present. -/
theorem c2_refcount_law_broken :
    c12Db0.put_with_hash c12Hash [1] 16 = some c12Db1 ∧
    c12Db1.get_ref_count c12Hash 16 = some 32768 ∧
    c12Db1.get_ref_count c12Hash 16 ≠ some 1 ∧
    c12Db1.remove c12Hash 16 = some (.ok (32767, c12Db2)) ∧
    c12Db2.get c12Hash 16 = some (some [1]) :=
  ⟨rfl, rfl, by decide, rfl, rfl⟩

end Subdb
